import Mathlib

/-!
Verification development for the obi-sl retrieval-augmented conversation core.

The Python sources are shallowly embedded:
* `src/utils/conversation_manager.py` — `Message`, `ConversationContext`,
  `ConversationManager._format_context`, `_fix_text_formatting`,
  `_create_prompt`, `get_response`;
* `src/utils/chat_logger.py` — `ChatLogger.__init__`, `start_thread`;
* `src/app.py` — the two citizen session slots and the reset performed by the
  start buttons.

External effects (the query engine, the Anthropic client, MongoDB, the clock)
are passed in as explicit oracle values, and the observable actions of a turn
are recorded in an event trace.  Machine strings are modelled as `String` /
`List Char`; the Python regex character classes `\d`, `\s`, `[a-zA-Z]` are
modelled over their ASCII ranges.
-/

namespace Obi

/-- `Message.role` is one of the three literal strings accepted by the code. -/
inductive Role
  | system
  | user
  | assistant
deriving DecidableEq, Repr

/-- `Message` dataclass: role, content and a visibility flag defaulting to true. -/
structure Message where
  role : Role
  content : String
  visible : Bool := true
deriving DecidableEq, Repr

/-- `QueryResult`: a retrieved passage plus its metadata mapping. -/
structure QueryResult where
  text : String
  metadata : List (String × String)
deriving DecidableEq, Repr

/-- The user-profile fields that `app.py` loads and `_create_prompt` reads.
`dob` is carried by the profile data but is never read by the code under
`src/`; it is included so that theorems can speak about its (non-)use. -/
structure UserProfile where
  full_name : String
  dob : String
  primary_language : String
  license_type : String
  license_number : String
  license_expiration : String
  street : String
  city : String
  state : String
  zip : String
  bagman_description : String := ""
deriving DecidableEq, Repr

/-- `ConversationContext` dataclass. -/
structure ConversationContext where
  messages : List Message
  last_query_results : Option (List QueryResult) := none
  system_message_added : Bool := false
  active_user_profile : Option UserProfile := none
deriving Repr

/-- A Python value passed as the `query` argument: the code first checks
`isinstance(query, str)`. -/
inductive PyVal
  | str (s : String)
  | int (n : Int)
  | bool (b : Bool)
  | pynone
deriving DecidableEq, Repr

/-- Python exceptions surfaced by the embedded code. -/
inductive PyErr
  | valueError (msg : String)
  | apiError (msg : String)
  | notImplementedError (msg : String)
deriving DecidableEq, Repr

/-- One content block of an Anthropic response (`block.text`). -/
structure ContentBlock where
  text : String
deriving DecidableEq, Repr

/-- An Anthropic response object.  `content = none` models a response object
without the `content` attribute (`hasattr(response, 'content')` fails);
`content = some blocks` models the attribute being present. -/
structure GenResponse where
  content : Option (List ContentBlock)
deriving DecidableEq, Repr

/-- Observable external actions of one turn. -/
inductive Event
  | retrieve (query : String)
  | callModel (model : String) (prompt : String)
  | sleep (seconds : Nat)
deriving DecidableEq, Repr

/-- The external world of one turn: the query engine and the outcomes of the
two generation backends, as functions of the prompt sent.  An `Except.error e`
carries `str(e)` of the raised exception. -/
structure TurnWorld where
  query_engine : String → List QueryResult
  primary : String → Except String GenResponse
  fallback : String → Except String GenResponse

/-- Python `sep.join(parts)`. -/
def pyJoin (sep : String) : List String → String
  | [] => ""
  | [x] => x
  | x :: y :: xs => x ++ sep ++ pyJoin sep (y :: xs)

/-- `metadata.get('source', 'Unknown')` for a query result. -/
def sourceOf (metadata : List (String × String)) : String :=
  (metadata.lookup "source").getD "Unknown"

/-- `ConversationManager._format_context`. -/
def format_context (query_results : List QueryResult) : String :=
  pyJoin "\n\n"
    (query_results.map fun result => "From " ++ sourceOf result.metadata ++ ":\n" ++ result.text)

/-- The fixed persona instruction held by `ConversationManager.__init__`
(abridged: the claims do not depend on the wording of this constant). -/
def system_prompt : String :=
  "You are a kind, patient guide to citizens who come to you because they need guidance on renewing their drivers license."

/-- The profile block interpolated by `_create_prompt` when a profile is bound. -/
def profile_context (p : UserProfile) : String :=
  "Current User Profile:\n- Name: " ++ p.full_name ++
  "\n- Preferred Language: " ++ p.primary_language ++
  "\n- License Details:\n  * Type: " ++ p.license_type ++
  "\n  * Number: " ++ p.license_number ++
  "\n  * Expiration: " ++ p.license_expiration ++
  "\n- Address: " ++ p.street ++ ", " ++ p.city ++ ", " ++ p.state ++ " " ++ p.zip ++
  "\n- Additional Notes: " ++ p.bagman_description ++ "\n"

/-! ### `_fix_text_formatting`

Each `re.sub(pattern, repl, text)` call is embedded as a left-to-right scanner:
at each position it either rewrites the (unique, greedy) match starting there
and resumes after the match, or emits one character and advances.  This is the
leftmost non-overlapping semantics of `re.sub`.  The character classes `\s`,
`\d`, `[a-zA-Z]` are modelled over ASCII. -/

/-- Python `\s` (ASCII range). -/
def isPyWs (c : Char) : Bool :=
  c == ' ' || c == '\t' || c == '\n' || c == '\r' || c == '\x0b' || c == '\x0c'

/-- Python `\d` (ASCII range, the characters 0-9). -/
def isPyDigit (c : Char) : Bool := decide (48 ≤ c.toNat ∧ c.toNat ≤ 57)

/-- The class `[a-zA-Z]`. -/
def isLetter (c : Char) : Bool :=
  decide ((65 ≤ c.toNat ∧ c.toNat ≤ 90) ∨ (97 ≤ c.toNat ∧ c.toNat ≤ 122))

/-- The class `[.!?]`. -/
def isPunct (c : Char) : Bool := c == '.' || c == '!' || c == '?'

/-- A matcher decides whether the pattern matches at the current position; on a
match it yields the replacement text and the remainder after the match. -/
def Matcher : Type := List Char → Option (List Char × List Char)

/-- A matcher must consume at least one character. -/
def GoodMatcher (m : Matcher) : Prop := ∀ l p, m l = some p → p.2.length < l.length

/-- Fuelled scanner loop (structural recursion, so the kernel can evaluate it
on concrete inputs; with enough fuel and a consuming matcher the fuel never
runs out). -/
def applySubFuel (m : Matcher) : Nat → List Char → List Char
  | 0, _ => []
  | _ + 1, [] => []
  | fuel + 1, c :: cs =>
    match m (c :: cs) with
    | some p => p.1 ++ applySubFuel m fuel p.2
    | none => c :: applySubFuel m fuel cs

/-- `re.sub` over a whole string, given the single-position matcher. -/
def applySub (m : Matcher) : List Char → List Char := fun l =>
  applySubFuel m l.length l

/-- With a consuming matcher any sufficient fuel computes the same result. -/
theorem applySubFuel_fuel_irrel {m : Matcher} (hm : GoodMatcher m) :
    ∀ (n1 : Nat) (l : List Char), l.length ≤ n1 →
      ∀ n2, l.length ≤ n2 → applySubFuel m n1 l = applySubFuel m n2 l := by
  intro n1
  induction n1 with
  | zero =>
    intro l hl n2 _
    have : l = [] := by cases l with
      | nil => rfl
      | cons a as => simp at hl
    subst this
    cases n2 <;> rfl
  | succ n ih =>
    intro l hl n2 hl2
    match l with
    | [] => cases n2 <;> rfl
    | c :: cs =>
      match n2 with
      | 0 => simp at hl2
      | n2 + 1 =>
        have step1 : applySubFuel m (n + 1) (c :: cs)
            = match m (c :: cs) with
              | some p => p.1 ++ applySubFuel m n p.2
              | none => c :: applySubFuel m n cs := rfl
        have step2 : applySubFuel m (n2 + 1) (c :: cs)
            = match m (c :: cs) with
              | some p => p.1 ++ applySubFuel m n2 p.2
              | none => c :: applySubFuel m n2 cs := rfl
        rw [step1, step2]
        cases hmc : m (c :: cs) with
        | some p =>
          have hlt := hm _ _ hmc
          simp only [List.length_cons] at hl hl2 hlt
          have h1 : p.2.length ≤ n := by omega
          have h2 : p.2.length ≤ n2 := by omega
          simp only
          rw [ih p.2 h1 n2 h2]
        | none =>
          simp only [List.length_cons] at hl hl2
          have h1 : cs.length ≤ n := by omega
          have h2 : cs.length ≤ n2 := by omega
          simp only
          rw [ih cs h1 n2 h2]

/-- Matcher of `\$\s+(\d)` with replacement `$\1`. -/
def mDollar : Matcher := fun l =>
  match l with
  | '$' :: cs =>
    match cs.dropWhile isPyWs with
    | d :: r =>
      if isPyDigit d && !(cs.takeWhile isPyWs).isEmpty then some (['$', d], r) else none
    | [] => none
  | _ => none

/-- Matcher of `(\d+)([a-zA-Z])` with replacement `\1 \2`. -/
def mDigitLetter : Matcher := fun l =>
  match l with
  | c :: cs =>
    if isPyDigit c then
      match cs.dropWhile isPyDigit with
      | x :: r =>
        if isLetter x then some (c :: cs.takeWhile isPyDigit ++ [' ', x], r) else none
      | [] => none
    else none
  | [] => none

/-- Matcher of `([a-zA-Z])(\d+)` with replacement `\1 \2`. -/
def mLetterDigit : Matcher := fun l =>
  match l with
  | c :: d :: cs =>
    if isLetter c && isPyDigit d then
      some ([c, ' ', d] ++ cs.takeWhile isPyDigit, cs.dropWhile isPyDigit)
    else none
  | _ => none

/-- Matcher of `([.!?])\s*(•)` with replacement `\1\n\n\2`. -/
def mBulletPunct : Matcher := fun l =>
  match l with
  | c :: cs =>
    if isPunct c then
      match cs.dropWhile isPyWs with
      | '•' :: r => some ([c, '\n', '\n', '•'], r)
      | _ => none
    else none
  | [] => none

/-- Matcher of `([^•])\s*•` with replacement `\1\n\n•`. -/
def mBulletAny : Matcher := fun l =>
  match l with
  | c :: cs =>
    if c ≠ '•' then
      match cs.dropWhile isPyWs with
      | '•' :: r => some ([c, '\n', '\n', '•'], r)
      | _ => none
    else none
  | [] => none

/-- The interrogative words of the last `re.sub`, in alternation order. -/
def qwords : List (List Char) :=
  ["Which", "What", "How", "Would", "Could", "Can", "Do", "Does", "Is", "Are",
   "Should", "Will", "Where", "When"].map String.toList

/-- Regex alternation with the trailing `\s` test: try each word in order; on a
literal match the next character must be whitespace, otherwise backtrack to the
later alternatives.  Returns the word and the remainder after the consumed
whitespace character. -/
def tryWords : List (List Char) → List Char → Option (List Char × List Char)
  | [], _ => none
  | w :: ws, t =>
    if w.isPrefixOf t then
      match t.drop w.length with
      | s :: r => if isPyWs s then some (w, r) else tryWords ws t
      | [] => tryWords ws t
    else tryWords ws t

/-- Matcher of `([.!?])\s*(Which|What|...|When)\s` with replacement `\1\n\n\2 `. -/
def mQuestion : Matcher := fun l =>
  match l with
  | c :: cs =>
    if isPunct c then
      match tryWords qwords (cs.dropWhile isPyWs) with
      | some (w, r) => some (c :: '\n' :: '\n' :: (w ++ [' ']), r)
      | none => none
    else none
  | [] => none

theorem length_dropWhile_le (p : Char → Bool) (l : List Char) :
    (l.dropWhile p).length ≤ l.length :=
  (List.dropWhile_sublist p).length_le

theorem good_mDollar : GoodMatcher mDollar := by
  intro l p h
  unfold mDollar at h
  split at h
  · rename_i cs
    split at h
    · rename_i d r hd
      split at h
      · cases h
        have hl := length_dropWhile_le isPyWs cs
        rw [hd] at hl
        simp only [List.length_cons] at hl ⊢
        omega
      · cases h
    · cases h
  · cases h

theorem good_mDigitLetter : GoodMatcher mDigitLetter := by
  intro l p h
  unfold mDigitLetter at h
  split at h
  · rename_i c cs
    split at h
    · split at h
      · rename_i x r hd
        split at h
        · cases h
          have hl := length_dropWhile_le isPyDigit cs
          rw [hd] at hl
          simp only [List.length_cons] at hl ⊢
          omega
        · cases h
      · cases h
    · cases h
  · cases h

theorem good_mLetterDigit : GoodMatcher mLetterDigit := by
  intro l p h
  unfold mLetterDigit at h
  split at h
  · rename_i c d cs
    split at h
    · cases h
      have hl := length_dropWhile_le isPyDigit cs
      simp only [List.length_cons]
      omega
    · cases h
  · cases h

theorem good_mBulletPunct : GoodMatcher mBulletPunct := by
  intro l p h
  unfold mBulletPunct at h
  split at h
  · rename_i c cs
    split at h
    · split at h
      · rename_i r hd
        cases h
        have hl := length_dropWhile_le isPyWs cs
        rw [hd] at hl
        simp only [List.length_cons] at hl ⊢
        omega
      · cases h
    · cases h
  · cases h

theorem good_mBulletAny : GoodMatcher mBulletAny := by
  intro l p h
  unfold mBulletAny at h
  split at h
  · rename_i c cs
    split at h
    · split at h
      · rename_i r hd
        cases h
        have hl := length_dropWhile_le isPyWs cs
        rw [hd] at hl
        simp only [List.length_cons] at hl ⊢
        omega
      · cases h
    · cases h
  · cases h

theorem tryWords_length {ws : List (List Char)} {t w : List Char} {r : List Char}
    (h : tryWords ws t = some (w, r)) : r.length < t.length := by
  induction ws with
  | nil => cases h
  | cons hd0 tl0 ih =>
    unfold tryWords at h
    split at h
    · split at h
      · rename_i s r0 hdrop
        split at h
        · cases h
          have hlen := congrArg List.length hdrop
          simp only [List.length_drop, List.length_cons] at hlen
          omega
        · exact ih h
      · exact ih h
    · exact ih h

theorem good_mQuestion : GoodMatcher mQuestion := by
  intro l p h
  unfold mQuestion at h
  split at h
  · rename_i c cs
    split at h
    · split at h
      · rename_i w r hw
        cases h
        have h1 := tryWords_length hw
        have h2 := length_dropWhile_le isPyWs cs
        simp only [List.length_cons]
        omega
      · cases h
    · cases h
  · cases h

theorem applySub_nil {m : Matcher} : applySub m [] = [] := rfl

theorem applySub_cons_some {m : Matcher} (hm : GoodMatcher m) {c : Char}
    {cs : List Char} {p : List Char × List Char} (h : m (c :: cs) = some p) :
    applySub m (c :: cs) = p.1 ++ applySub m p.2 := by
  have hlt := hm _ _ h
  simp only [List.length_cons] at hlt
  have step : applySubFuel m (cs.length + 1) (c :: cs)
      = match m (c :: cs) with
        | some p => p.1 ++ applySubFuel m cs.length p.2
        | none => c :: applySubFuel m cs.length cs := rfl
  show applySubFuel m (cs.length + 1) (c :: cs) = p.1 ++ applySubFuel m p.2.length p.2
  rw [step, h]
  simp only
  rw [applySubFuel_fuel_irrel hm cs.length p.2 (by omega) p.2.length le_rfl]

theorem applySub_cons_none {m : Matcher} {c : Char}
    {cs : List Char} (h : m (c :: cs) = none) :
    applySub m (c :: cs) = c :: applySub m cs := by
  have step : applySubFuel m (cs.length + 1) (c :: cs)
      = match m (c :: cs) with
        | some p => p.1 ++ applySubFuel m cs.length p.2
        | none => c :: applySubFuel m cs.length cs := rfl
  show applySubFuel m (cs.length + 1) (c :: cs) = c :: applySubFuel m cs.length cs
  rw [step, h]

/-- Scanner induction: to prove a property of every input it suffices to handle
the empty list, a match step, and a no-match step. -/
theorem scanner_induction (m : Matcher) (hm : GoodMatcher m) (P : List Char → Prop)
    (h0 : P [])
    (h1 : ∀ c cs p, m (c :: cs) = some p → P p.2 → P (c :: cs))
    (h2 : ∀ c cs, m (c :: cs) = none → P cs → P (c :: cs)) :
    ∀ l, P l := by
  have key : ∀ n (l : List Char), l.length ≤ n → P l := by
    intro n
    induction n with
    | zero =>
      intro l hl
      have : l = [] := by cases l with
        | nil => rfl
        | cons a as => simp at hl
      rw [this]; exact h0
    | succ n ih =>
      intro l hl
      match l with
      | [] => exact h0
      | c :: cs =>
        cases hmc : m (c :: cs) with
        | some p =>
          refine h1 c cs p hmc (ih p.2 ?_)
          have := hm _ _ hmc
          simp only [List.length_cons] at this hl
          omega
        | none =>
          refine h2 c cs hmc (ih cs ?_)
          simp only [List.length_cons] at hl
          omega
  exact fun l => key l.length l le_rfl

/-- If every match emits a replacement starting with the scanned character,
the scanner preserves the head character. -/
theorem applySub_head {m : Matcher} (hm : GoodMatcher m)
    (hemit : ∀ l p, m l = some p → p.1.head? = l.head?) :
    ∀ l, (applySub m l).head? = l.head? := by
  refine scanner_induction m hm _ (by simp [applySub_nil]) ?_ ?_
  · intro c cs p hmc _
    rw [applySub_cons_some hm hmc]
    have := hemit _ _ hmc
    cases hp : p.1 with
    | nil => rw [hp] at this; cases this
    | cons a as =>
      rw [hp] at this
      simp only [List.head?_cons] at this
      simp [this]
  · intro c cs hmc _
    rw [applySub_cons_none hmc]
    rfl

/-- A matcher that never fires at heads of a given class lets the scanner copy
any leading run of that class verbatim. -/
theorem applySub_skip {m : Matcher} (cond : Char → Bool)
    (hskip : ∀ c cs, cond c = true → m (c :: cs) = none) :
    ∀ w l, (∀ c ∈ w, cond c = true) →
      applySub m (w ++ l) = w ++ applySub m l := by
  intro w
  induction w with
  | nil => intro l _; rfl
  | cons c cw ih =>
    intro l hcw
    have hc : cond c = true := hcw c (by simp)
    rw [List.cons_append, applySub_cons_none (hskip c (cw ++ l) hc)]
    rw [ih l (fun d hd => hcw d (by simp [hd]))]
    simp

/-- A list with a known head is a cons. -/
theorem cons_of_head? {l : List Char} {x : Char} (h : l.head? = some x) :
    ∃ t, l = x :: t := by
  cases l with
  | nil => cases h
  | cons a t =>
    refine ⟨t, ?_⟩
    injection h with h1
    rw [h1]

/-- `dropWhile` yields a suffix. -/
theorem dropWhile_suffix (p : Char → Bool) (l : List Char) :
    l.dropWhile p <:+ l := by
  induction l with
  | nil => simp
  | cons c cs ih =>
    by_cases hc : p c
    · rw [List.dropWhile_cons_of_pos hc]
      exact ih.trans (List.suffix_cons c cs)
    · rw [List.dropWhile_cons_of_neg hc]

/-- The head of a `dropWhile` residue falsifies the predicate. -/
theorem dropWhile_head_false {p : Char → Bool} {l r : List Char} {x : Char}
    (h : l.dropWhile p = x :: r) : p x = false := by
  induction l with
  | nil => cases h
  | cons c cs ih =>
    by_cases hc : p c
    · rw [List.dropWhile_cons_of_pos hc] at h
      exact ih h
    · rw [List.dropWhile_cons_of_neg hc] at h
      cases h
      exact Bool.not_eq_true _ ▸ (by simpa using hc)

/-! ### Character class facts -/

theorem digit_not_letter {c : Char} (h : isPyDigit c = true) : isLetter c = false := by
  simp only [isPyDigit, decide_eq_true_eq] at h
  simp only [isLetter, decide_eq_false_iff_not]
  omega

theorem letter_not_digit {c : Char} (h : isLetter c = true) : isPyDigit c = false := by
  simp only [isLetter, decide_eq_true_eq] at h
  simp only [isPyDigit, decide_eq_false_iff_not]
  omega

theorem ws_enum {c : Char} (h : isPyWs c = true) :
    c = ' ' ∨ c = '\t' ∨ c = '\n' ∨ c = '\r' ∨ c = '\x0b' ∨ c = '\x0c' := by
  simp only [isPyWs, Bool.or_eq_true, beq_iff_eq] at h
  tauto

theorem ws_not_digit {c : Char} (h : isPyWs c = true) : isPyDigit c = false := by
  rcases ws_enum h with h | h | h | h | h | h <;> subst h <;> decide

theorem ws_not_letter {c : Char} (h : isPyWs c = true) : isLetter c = false := by
  rcases ws_enum h with h | h | h | h | h | h <;> subst h <;> decide

theorem ws_ne_bullet {c : Char} (h : isPyWs c = true) : c ≠ '•' := by
  rcases ws_enum h with h | h | h | h | h | h <;> subst h <;> decide

theorem punct_enum {c : Char} (h : isPunct c = true) : c = '.' ∨ c = '!' ∨ c = '?' := by
  simp only [isPunct, Bool.or_eq_true, beq_iff_eq] at h
  tauto

theorem punct_not_ws {c : Char} (h : isPunct c = true) : isPyWs c = false := by
  rcases punct_enum h with h | h | h <;> subst h <;> decide

theorem punct_not_letter {c : Char} (h : isPunct c = true) : isLetter c = false := by
  rcases punct_enum h with h | h | h <;> subst h <;> decide

theorem punct_not_digit {c : Char} (h : isPunct c = true) : isPyDigit c = false := by
  rcases punct_enum h with h | h | h <;> subst h <;> decide

theorem punct_ne_bullet {c : Char} (h : isPunct c = true) : c ≠ '•' := by
  rcases punct_enum h with h | h | h <;> subst h <;> decide

/-! ### Matcher inversion lemmas -/

theorem mDollar_some {l : List Char} {p : List Char × List Char}
    (h : mDollar l = some p) :
    ∃ cs d r, l = '$' :: cs ∧ cs.dropWhile isPyWs = d :: r ∧
      isPyDigit d = true ∧ (cs.takeWhile isPyWs).isEmpty = false ∧
      p = (['$', d], r) := by
  unfold mDollar at h
  split at h
  · rename_i cs
    split at h
    · rename_i d r hd
      split at h
      · rename_i hcond
        cases h
        simp only [Bool.and_eq_true, Bool.not_eq_true'] at hcond
        exact ⟨cs, d, r, rfl, hd, hcond.1, hcond.2, rfl⟩
      · cases h
    · cases h
  · cases h

theorem mDigitLetter_some {l : List Char} {p : List Char × List Char}
    (h : mDigitLetter l = some p) :
    ∃ c cs x r, l = c :: cs ∧ isPyDigit c = true ∧
      cs.dropWhile isPyDigit = x :: r ∧ isLetter x = true ∧
      p = (c :: cs.takeWhile isPyDigit ++ [' ', x], r) := by
  unfold mDigitLetter at h
  split at h
  · rename_i c cs
    split at h
    · rename_i hc
      split at h
      · rename_i x r hd
        split at h
        · rename_i hx
          cases h
          exact ⟨c, cs, x, r, rfl, hc, hd, hx, rfl⟩
        · cases h
      · cases h
    · cases h
  · cases h

theorem mLetterDigit_some {l : List Char} {p : List Char × List Char}
    (h : mLetterDigit l = some p) :
    ∃ c d cs, l = c :: d :: cs ∧ isLetter c = true ∧ isPyDigit d = true ∧
      p = ([c, ' ', d] ++ cs.takeWhile isPyDigit, cs.dropWhile isPyDigit) := by
  unfold mLetterDigit at h
  split at h
  · rename_i c d cs
    split at h
    · rename_i hcd
      cases h
      simp only [Bool.and_eq_true] at hcd
      exact ⟨c, d, cs, rfl, hcd.1, hcd.2, rfl⟩
    · cases h
  · cases h

theorem mBulletPunct_some {l : List Char} {p : List Char × List Char}
    (h : mBulletPunct l = some p) :
    ∃ c cs r, l = c :: cs ∧ isPunct c = true ∧
      cs.dropWhile isPyWs = '•' :: r ∧ p = ([c, '\n', '\n', '•'], r) := by
  unfold mBulletPunct at h
  split at h
  · rename_i c cs
    split at h
    · rename_i hc
      split at h
      · rename_i r hd
        cases h
        exact ⟨c, cs, r, rfl, hc, hd, rfl⟩
      · cases h
    · cases h
  · cases h

theorem mBulletAny_some {l : List Char} {p : List Char × List Char}
    (h : mBulletAny l = some p) :
    ∃ c cs r, l = c :: cs ∧ c ≠ '•' ∧
      cs.dropWhile isPyWs = '•' :: r ∧ p = ([c, '\n', '\n', '•'], r) := by
  unfold mBulletAny at h
  split at h
  · rename_i c cs
    split at h
    · rename_i hc
      split at h
      · rename_i r hd
        cases h
        exact ⟨c, cs, r, rfl, hc, hd, rfl⟩
      · cases h
    · cases h
  · cases h

theorem mQuestion_some {l : List Char} {p : List Char × List Char}
    (h : mQuestion l = some p) :
    ∃ c cs w r, l = c :: cs ∧ isPunct c = true ∧
      tryWords qwords (cs.dropWhile isPyWs) = some (w, r) ∧
      p = (c :: '\n' :: '\n' :: (w ++ [' ']), r) := by
  unfold mQuestion at h
  split at h
  · rename_i c cs
    split at h
    · rename_i hc
      split at h
      · rename_i w r htw
        cases h
        exact ⟨c, cs, w, r, rfl, hc, htw, rfl⟩
      · cases h
    · cases h
  · cases h

theorem tryWords_some {ws : List (List Char)} {t w r : List Char}
    (h : tryWords ws t = some (w, r)) :
    w ∈ ws ∧ w.isPrefixOf t = true ∧ ∃ s, t.drop w.length = s :: r ∧ isPyWs s = true := by
  induction ws with
  | nil => cases h
  | cons hd0 tl0 ih =>
    unfold tryWords at h
    split at h
    · rename_i hpre
      split at h
      · rename_i s r0 hdrop
        split at h
        · rename_i hs
          cases h
          exact ⟨by simp, hpre, s, hdrop, hs⟩
        · obtain ⟨h1, h2, h3⟩ := ih h
          exact ⟨by simp [h1], h2, h3⟩
      · obtain ⟨h1, h2, h3⟩ := ih h
        exact ⟨by simp [h1], h2, h3⟩
    · obtain ⟨h1, h2, h3⟩ := ih h
      exact ⟨by simp [h1], h2, h3⟩

/-- `re.sub(r'\$\s+(\d)', r'$\1', text)`. -/
def subDollar : List Char → List Char := applySub mDollar

/-- `re.sub(r'(\d+)([a-zA-Z])', r'\1 \2', text)`. -/
def subDL : List Char → List Char := applySub mDigitLetter

/-- `re.sub(r'([a-zA-Z])(\d+)', r'\1 \2', text)`. -/
def subLD : List Char → List Char := applySub mLetterDigit

/-- `re.sub(r'([.!?])\s*(•)', r'\1\n\n\2', text)`. -/
def subBP : List Char → List Char := applySub mBulletPunct

/-- `re.sub(r'([^•])\s*•', r'\1\n\n•', text)`. -/
def subBA : List Char → List Char := applySub mBulletAny

/-- `re.sub(r'([.!?])\s*(Which|...)\s', r'\1\n\n\2 ', text)`. -/
def subQ : List Char → List Char := applySub mQuestion

/-! ### Non-firing conditions of the matchers -/

theorem mDollar_none_of_ne {c : Char} (cs : List Char) (h : c ≠ '$') :
    mDollar (c :: cs) = none := by
  unfold mDollar
  split
  · rename_i cs' heq
    injection heq with h1 _
    exact absurd h1 h
  · rfl

theorem mDigitLetter_none_of_not_digit {c : Char} (cs : List Char)
    (h : isPyDigit c = false) : mDigitLetter (c :: cs) = none := by
  simp [mDigitLetter, h]

theorem mLetterDigit_none_of_not_letter {c : Char} (cs : List Char)
    (h : isLetter c = false) : mLetterDigit (c :: cs) = none := by
  cases cs with
  | nil => rfl
  | cons d cs' => simp [mLetterDigit, h]

theorem mBulletPunct_none_of_not_punct {c : Char} (cs : List Char)
    (h : isPunct c = false) : mBulletPunct (c :: cs) = none := by
  simp [mBulletPunct, h]

theorem mQuestion_none_of_not_punct {c : Char} (cs : List Char)
    (h : isPunct c = false) : mQuestion (c :: cs) = none := by
  simp [mQuestion, h]

theorem ws_ne_dollar {c : Char} (h : isPyWs c = true) : c ≠ '$' := by
  rcases ws_enum h with h | h | h | h | h | h <;> subst h <;> decide

theorem digit_ne_dollar {c : Char} (h : isPyDigit c = true) : c ≠ '$' := by
  intro he
  subst he
  exact absurd h (by decide)

theorem letter_ne_dollar {c : Char} (h : isLetter c = true) : c ≠ '$' := by
  intro he
  subst he
  exact absurd h (by decide)

theorem punct_ne_dollar {c : Char} (h : isPunct c = true) : c ≠ '$' := by
  rcases punct_enum h with h | h | h <;> subst h <;> decide

theorem letter_ne_bullet {c : Char} (h : isLetter c = true) : c ≠ '•' := by
  intro he
  subst he
  exact absurd h (by decide)

theorem digit_ne_bullet {c : Char} (h : isPyDigit c = true) : c ≠ '•' := by
  intro he
  subst he
  exact absurd h (by decide)

/-! ### Span structure -/

theorem dropWhile_append_all {p : Char → Bool} :
    ∀ (w u : List Char), (∀ c ∈ w, p c = true) →
      List.dropWhile p (w ++ u) = List.dropWhile p u := by
  intro w
  induction w with
  | nil => intro u _; rfl
  | cons c cw ih =>
    intro u hw
    rw [List.cons_append, List.dropWhile_cons_of_pos (hw c (by simp))]
    exact ih u fun d hd => hw d (by simp [hd])

theorem takeWhile_append_all {p : Char → Bool} :
    ∀ (w : List Char) {x : Char} (u : List Char), (∀ c ∈ w, p c = true) →
      p x = false → List.takeWhile p (w ++ x :: u) = w := by
  intro w
  induction w with
  | nil =>
    intro x u _ hx
    rw [List.nil_append, List.takeWhile_cons_of_neg (by simp [hx])]
  | cons c cw ih =>
    intro x u hw hx
    rw [List.cons_append, List.takeWhile_cons_of_pos (hw c (by simp))]
    rw [ih u (fun d hd => hw d (by simp [hd])) hx]

/-- For a matcher that never fires at whitespace heads and preserves heads,
the scanner keeps the leading whitespace run and the first non-whitespace
character. -/
theorem span_preserved {m : Matcher}
    (hwsfail : ∀ c cs, isPyWs c = true → m (c :: cs) = none)
    (hhead : ∀ l, (applySub m l).head? = l.head?) :
    ∀ l, (List.dropWhile isPyWs (applySub m l)).head?
          = (List.dropWhile isPyWs l).head?
        ∧ List.takeWhile isPyWs (applySub m l) = List.takeWhile isPyWs l := by
  intro l
  have hsplit : l.takeWhile isPyWs ++ l.dropWhile isPyWs = l :=
    List.takeWhile_append_dropWhile (p := isPyWs) (l := l)
  have hwmem : ∀ c ∈ l.takeWhile isPyWs, isPyWs c = true :=
    fun c hc => List.mem_takeWhile_imp hc
  have happ : applySub m l
      = l.takeWhile isPyWs ++ applySub m (l.dropWhile isPyWs) := by
    conv_lhs => rw [← hsplit]
    exact applySub_skip isPyWs hwsfail _ _ hwmem
  cases hv : l.dropWhile isPyWs with
  | nil =>
    rw [happ, hv, applySub_nil, List.append_nil]
    constructor
    · rw [List.dropWhile_eq_nil_iff.mpr hwmem]
    · exact List.takeWhile_eq_self_iff.mpr hwmem
  | cons x t =>
    have hx : isPyWs x = false := dropWhile_head_false hv
    have hox : (applySub m (l.dropWhile isPyWs)).head? = some x := by
      rw [hhead, hv]
      rfl
    obtain ⟨t2, ht2⟩ := cons_of_head? hox
    rw [hv] at ht2
    rw [happ, hv, ht2]
    constructor
    · rw [dropWhile_append_all _ _ hwmem, List.dropWhile_cons_of_neg (by simp [hx])]
      rfl
    · exact takeWhile_append_all _ _ hwmem hx

/-- The bullet substitution also keeps the first non-whitespace character (its
matches can start inside a whitespace run, but they preserve the first
non-whitespace character, which is the bullet itself). -/
theorem span_head_subBA : ∀ l,
    (List.dropWhile isPyWs (applySub mBulletAny l)).head?
      = (List.dropWhile isPyWs l).head? := by
  refine scanner_induction mBulletAny good_mBulletAny _ (by rfl) ?_ ?_
  · intro c cs p hmc ih
    obtain ⟨c', cs', r, hl, hne, hd, hp⟩ := mBulletAny_some hmc
    injection hl with e1 e2
    subst e1
    subst e2
    subst hp
    rw [applySub_cons_some good_mBulletAny hmc]
    have e : (([c, '\n', '\n', '•'], r).1 : List Char) ++ applySub mBulletAny r
        = c :: '\n' :: '\n' :: '•' :: applySub mBulletAny r := rfl
    rw [e]
    by_cases hc : isPyWs c
    · rw [List.dropWhile_cons_of_pos hc, List.dropWhile_cons_of_pos (by decide),
        List.dropWhile_cons_of_pos (by decide), List.dropWhile_cons_of_neg (by decide),
        List.dropWhile_cons_of_pos hc, hd]
      rfl
    · rw [List.dropWhile_cons_of_neg (by simp [hc]),
        List.dropWhile_cons_of_neg (by simp [hc])]
      rfl
  · intro c cs hmc ih
    rw [applySub_cons_none hmc]
    by_cases hc : isPyWs c
    · rw [List.dropWhile_cons_of_pos hc, List.dropWhile_cons_of_pos hc]
      exact ih
    · rw [List.dropWhile_cons_of_neg (by simp [hc]),
        List.dropWhile_cons_of_neg (by simp [hc])]
      rfl

/-! ### Digit/letter adjacency -/

/-- No digit immediately followed by a letter at this pair. -/
def DLok (a b : Char) : Prop := ¬(isPyDigit a = true ∧ isLetter b = true)

/-- No letter immediately followed by a digit at this pair. -/
def LDok (a b : Char) : Prop := ¬(isLetter a = true ∧ isPyDigit b = true)

theorem DLok_of_not_letter {a b : Char} (h : isLetter b = false) : DLok a b := by
  intro hc
  rw [h] at hc
  exact absurd hc.2 (by simp)

theorem DLok_of_not_digit {a b : Char} (h : isPyDigit a = false) : DLok a b := by
  intro hc
  rw [h] at hc
  exact absurd hc.1 (by simp)

theorem LDok_of_not_digit {a b : Char} (h : isPyDigit b = false) : LDok a b := by
  intro hc
  rw [h] at hc
  exact absurd hc.2 (by simp)

theorem LDok_of_not_letter {a b : Char} (h : isLetter a = false) : LDok a b := by
  intro hc
  rw [h] at hc
  exact absurd hc.1 (by simp)

theorem chain'_all_pairs {R : Char → Char → Prop} :
    ∀ (l : List Char), (∀ a ∈ l, ∀ b ∈ l, R a b) → List.Chain' R l := by
  intro l
  induction l with
  | nil => intro _; simp
  | cons a t ih =>
    intro h
    rw [List.chain'_cons']
    refine ⟨?_, ih ?_⟩
    · intro y hy
      have hyt : y ∈ t := List.mem_of_mem_head? hy
      exact h a (by simp) y (by simp [hyt])
    · intro x hx b hb
      exact h x (by simp [hx]) b (by simp [hb])

theorem suffix_from_dropWhile {p : Char → Bool} {cs : List Char} {x : Char}
    {r : List Char} (h : cs.dropWhile p = x :: r) : r <:+ cs := by
  have h1 := dropWhile_suffix p cs
  rw [h] at h1
  exact (List.suffix_cons x r).trans h1

theorem suffix_from_drop {t : List Char} {n : Nat} {s : Char} {r : List Char}
    (h : t.drop n = s :: r) : r <:+ t := by
  have h1 : t.drop n <:+ t := List.drop_suffix n t
  rw [h] at h1
  exact (List.suffix_cons s r).trans h1

/-! ### Head preservation of the six substitutions -/

theorem subDollar_head : ∀ l, (applySub mDollar l).head? = l.head? :=
  applySub_head good_mDollar fun l p h => by
    obtain ⟨cs, d, r, hl, _, _, _, hp⟩ := mDollar_some h
    subst hl
    rw [hp]
    rfl

theorem subDL_head : ∀ l, (applySub mDigitLetter l).head? = l.head? :=
  applySub_head good_mDigitLetter fun l p h => by
    obtain ⟨c, cs, x, r, hl, _, _, _, hp⟩ := mDigitLetter_some h
    subst hl
    rw [hp]
    rfl

theorem subLD_head : ∀ l, (applySub mLetterDigit l).head? = l.head? :=
  applySub_head good_mLetterDigit fun l p h => by
    obtain ⟨c, d, cs, hl, _, _, hp⟩ := mLetterDigit_some h
    subst hl
    rw [hp]
    rfl

theorem subBP_head : ∀ l, (applySub mBulletPunct l).head? = l.head? :=
  applySub_head good_mBulletPunct fun l p h => by
    obtain ⟨c, cs, r, hl, _, _, hp⟩ := mBulletPunct_some h
    subst hl
    rw [hp]
    rfl

theorem subBA_head : ∀ l, (applySub mBulletAny l).head? = l.head? :=
  applySub_head good_mBulletAny fun l p h => by
    obtain ⟨c, cs, r, hl, _, _, hp⟩ := mBulletAny_some h
    subst hl
    rw [hp]
    rfl

theorem subQ_head : ∀ l, (applySub mQuestion l).head? = l.head? :=
  applySub_head good_mQuestion fun l p h => by
    obtain ⟨c, cs, w, r, hl, _, _, hp⟩ := mQuestion_some h
    subst hl
    rw [hp]
    rfl

/-! ### Last-character and bullet-freeness facts used for idempotence -/

/-- All characters of the interrogative words are letters. -/
theorem qwords_letters : ∀ w ∈ qwords, ∀ c ∈ w, isLetter c = true := by decide

theorem getLast?_suffix {r l : List Char} (h : r <:+ l) (hne : r ≠ []) :
    l.getLast? = r.getLast? := by
  obtain ⟨pre, hp⟩ := h
  subst hp
  rw [List.getLast?_append]
  cases hg : r.getLast? with
  | none => exact absurd (List.getLast?_eq_none_iff.mp hg) hne
  | some z => rfl

/-- The question substitution preserves a non-whitespace final character. -/
theorem subQ_getLast {d : Char} (hd : isPyWs d = false) :
    ∀ l, l.getLast? = some d → (applySub mQuestion l).getLast? = some d := by
  refine scanner_induction mQuestion good_mQuestion _ ?_ ?_ ?_
  · intro h
    exact absurd h (by simp)
  · intro c cs p hmc ih h
    obtain ⟨c', cs', w, r, hl, hc, htw, hp⟩ := mQuestion_some hmc
    injection hl with e1 e2
    subst e1
    subst e2
    subst hp
    obtain ⟨hwin, hwpre, s, hdrop, hs⟩ := tryWords_some htw
    have hsr : s :: r <:+ c :: cs := by
      have h1 : s :: r <:+ List.dropWhile isPyWs cs := by
        rw [← hdrop]
        exact List.drop_suffix _ _
      exact (h1.trans (dropWhile_suffix isPyWs cs)).trans (List.suffix_cons c cs)
    have hrne : r ≠ [] := by
      intro he
      subst he
      have hlast := getLast?_suffix hsr (by simp)
      rw [h] at hlast
      have he2 : d = s := by simpa using hlast
      subst he2
      rw [hs] at hd
      cases hd
    have hrlast : r.getLast? = some d := by
      have h1 : r <:+ c :: cs := (List.suffix_cons s r).trans hsr
      have h2 := getLast?_suffix h1 hrne
      rw [h] at h2
      exact h2.symm
    rw [applySub_cons_some good_mQuestion hmc]
    rw [List.getLast?_append, ih hrlast]
    rfl
  · intro c cs hmc ih h
    rw [applySub_cons_none hmc]
    cases cs with
    | nil =>
      rw [applySub_nil]
      simpa using h
    | cons y cs' =>
      have hcs : (y :: cs').getLast? = some d := by
        rw [← List.getLast?_cons_cons (a := c)]
        exact h
      have hout := ih hcs
      have hhd : (applySub mQuestion (y :: cs')).head? = some y := by
        rw [subQ_head]
        rfl
      obtain ⟨t2, ht2⟩ := cons_of_head? hhd
      rw [ht2] at hout ⊢
      rw [List.getLast?_cons_cons]
      exact hout

theorem mem_of_mem_dropWhile {p : Char → Bool} {x : Char} {l : List Char}
    (h : x ∈ l.dropWhile p) : x ∈ l :=
  (List.dropWhile_sublist p).mem h

/-- `([^•])\s*•` never matches in a bullet-free string. -/
theorem subBA_id_of_no_bullet : ∀ l, '•' ∉ l → applySub mBulletAny l = l := by
  refine scanner_induction mBulletAny good_mBulletAny _ (fun _ => applySub_nil) ?_ ?_
  · intro c cs p hmc _ h
    obtain ⟨c', cs', r, hl, _, hd, _⟩ := mBulletAny_some hmc
    injection hl with e1 e2
    subst e1
    subst e2
    refine absurd (List.mem_cons.mpr (Or.inr ?_)) h
    exact mem_of_mem_dropWhile (by rw [hd]; exact List.mem_cons_self _ _)
  · intro c cs hmc ih h
    rw [applySub_cons_none hmc, ih fun hb => h (List.mem_cons.mpr (Or.inr hb))]

/-- `([.!?])\s*(•)` never matches in a bullet-free string. -/
theorem subBP_id_of_no_bullet : ∀ l, '•' ∉ l → applySub mBulletPunct l = l := by
  refine scanner_induction mBulletPunct good_mBulletPunct _ (fun _ => applySub_nil) ?_ ?_
  · intro c cs p hmc _ h
    obtain ⟨c', cs', r, hl, _, hd, _⟩ := mBulletPunct_some hmc
    injection hl with e1 e2
    subst e1
    subst e2
    refine absurd (List.mem_cons.mpr (Or.inr ?_)) h
    exact mem_of_mem_dropWhile (by rw [hd]; exact List.mem_cons_self _ _)
  · intro c cs hmc ih h
    rw [applySub_cons_none hmc, ih fun hb => h (List.mem_cons.mpr (Or.inr hb))]

/-- The question substitution introduces no bullet. -/
theorem subQ_no_bullet : ∀ l, '•' ∉ l → '•' ∉ applySub mQuestion l := by
  refine scanner_induction mQuestion good_mQuestion _ ?_ ?_ ?_
  · intro _
    rw [applySub_nil]
    simp
  · intro c cs p hmc ih h
    obtain ⟨c', cs', w, r, hl, hc, htw, hp⟩ := mQuestion_some hmc
    injection hl with e1 e2
    subst e1
    subst e2
    subst hp
    obtain ⟨hwin, _, s, hdrop, _⟩ := tryWords_some htw
    rw [applySub_cons_some good_mQuestion hmc]
    intro hmem
    rcases List.mem_append.mp hmem with hin | hin
    · rcases List.mem_cons.mp hin with e | hin
      · exact punct_ne_bullet hc e.symm
      rcases List.mem_cons.mp hin with e | hin
      · exact absurd e (by decide)
      rcases List.mem_cons.mp hin with e | hin
      · exact absurd e (by decide)
      rcases List.mem_append.mp hin with e | e
      · exact letter_ne_bullet (qwords_letters w hwin '•' e) rfl
      · exact absurd (List.mem_singleton.mp e) (by decide)
    · have hrs : r <:+ c :: cs :=
        ((suffix_from_drop hdrop).trans (dropWhile_suffix isPyWs cs)).trans
          (List.suffix_cons c cs)
      exact ih (fun hb => h (hrs.subset hb)) hin
  · intro c cs hmc ih h
    rw [applySub_cons_none hmc]
    intro hmem
    rcases List.mem_cons.mp hmem with e | hin
    · exact h (by rw [e]; exact List.mem_cons_self c cs)
    · exact ih (fun hb => h (List.mem_cons.mpr (Or.inr hb))) hin

/-! ### `tryWords` characterizations -/

theorem qwords_ne_nil : ∀ w ∈ qwords, w ≠ [] := by decide

theorem letter_not_ws {c : Char} (h : isLetter c = true) : isPyWs c = false := by
  cases hw : isPyWs c
  · rfl
  · rw [ws_not_letter hw] at h
    cases h

theorem letter_not_punct {c : Char} (h : isLetter c = true) : isPunct c = false := by
  cases hw : isPunct c
  · rfl
  · rw [punct_not_letter hw] at h
    cases h

theorem tryWords_cons (V : List Char) (L : List (List Char)) (t : List Char) :
    tryWords (V :: L) t
      = if V.isPrefixOf t then
          match t.drop V.length with
          | s :: r => if isPyWs s then some (V, r) else tryWords L t
          | [] => tryWords L t
        else tryWords L t := rfl

theorem tryWords_nil_input : ∀ (L : List (List Char)), (∀ V ∈ L, V ≠ []) →
    tryWords L [] = none := by
  intro L
  induction L with
  | nil => intro _; rfl
  | cons V L ih =>
    intro hL
    unfold tryWords
    cases V with
    | nil => exact absurd rfl (hL [] (by simp))
    | cons a as =>
      rw [show ((a :: as).isPrefixOf ([] : List Char)) = false from rfl]
      rw [if_neg (by simp)]
      exact ih fun V hV2 => hL V (by simp [hV2])

/-- Alternation applied to a text beginning with one of the words followed by
a whitespace character selects exactly that word. -/
theorem tryWords_run : ∀ (L : List (List Char)),
    (∀ V ∈ L, ∀ c ∈ V, isLetter c = true) →
    ∀ W, W ∈ L → ∀ (s : Char) (rest : List Char), isPyWs s = true →
      tryWords L (W ++ s :: rest) = some (W, rest) := by
  intro L
  induction L with
  | nil =>
    intro _ W hW
    cases hW
  | cons V L ih =>
    intro hlet W hW s rest hs
    unfold tryWords
    by_cases hVW : V = W
    · subst hVW
      have hp : V.isPrefixOf (V ++ s :: rest) = true :=
        ( List.isPrefixOf_iff_prefix).mpr (List.prefix_append V (s :: rest))
      rw [if_pos hp, List.drop_left]
      show (if isPyWs s = true then some (V, rest) else tryWords L (V ++ s :: rest))
          = some (V, rest)
      rw [if_pos hs]
    · have hW2 : W ∈ L := by
        rcases List.mem_cons.mp hW with h | h
        · exact absurd h.symm hVW
        · exact h
      have htail := ih (fun U hU c hc => hlet U (by simp [hU]) c hc) W hW2 s rest hs
      by_cases hpre : V.isPrefixOf (W ++ s :: rest) = true
      · rw [if_pos hpre]
        have hVp : V <+: W ++ s :: rest := ( List.isPrefixOf_iff_prefix).mp hpre
        have hWp : W <+: W ++ s :: rest := List.prefix_append W (s :: rest)
        rcases List.prefix_or_prefix_of_prefix hVp hWp with hvw | hwv
        · obtain ⟨k, hk⟩ := hvw
          cases k with
          | nil =>
            rw [List.append_nil] at hk
            exact absurd hk hVW
          | cons c t =>
            have hdrop : (W ++ s :: rest).drop V.length = c :: (t ++ s :: rest) := by
              rw [← hk, List.append_assoc, List.drop_left]
              simp
            rw [hdrop]
            have hc : isLetter c = true := by
              refine hlet W (by simp [hW2]) c ?_
              rw [← hk]
              simp
            show (if isPyWs c = true then some (V, t ++ s :: rest)
                else tryWords L (W ++ s :: rest)) = some (W, rest)
            rw [if_neg (by simp [letter_not_ws hc])]
            exact htail
        · obtain ⟨k, hk⟩ := hwv
          obtain ⟨k2, hk2⟩ := hVp
          rw [← hk, List.append_assoc] at hk2
          have hk3 : k ++ k2 = s :: rest := by
            have := List.append_cancel_left hk2
            exact this
          cases k with
          | nil =>
            rw [List.append_nil] at hk
            exact absurd hk.symm hVW
          | cons c t =>
            have hc : c = s := by
              have hcc : c :: (t ++ k2) = s :: rest := by
                rw [← hk3]
                simp
              have h2 := congrArg List.head? hcc
              simpa using h2
            have hcV : c ∈ V := by
              rw [← hk]
              simp
            rw [hc] at hcV
            rw [letter_not_ws (hlet V (by simp) s hcV)] at hs
            cases hs
      · rw [if_neg hpre]
        exact htail

/-- The head of the continuation, if any, is neither whitespace nor a letter.
Such a boundary stops whitespace runs, word matches and the trailing
whitespace test alike. -/
def opaqueHead (w : List Char) : Prop :=
  ∀ o, w.head? = some o → isPyWs o = false ∧ isLetter o = false

theorem opaqueHead_nil : opaqueHead [] := by
  intro o h
  cases h

theorem opaqueHead_bullet (b : List Char) : opaqueHead ('•' :: b) := by
  intro o h
  injection h with h1
  subst h1
  exact ⟨by decide, by decide⟩

theorem opaqueHead_punct {P : Char} (hP : isPunct P = true) (b : List Char) :
    opaqueHead (P :: b) := by
  intro o h
  injection h with h1
  subst h1
  exact ⟨punct_not_ws hP, punct_not_letter hP⟩

theorem isPrefixOf_append_opq : ∀ (V t w : List Char),
    (∀ c ∈ V, isLetter c = true) → opaqueHead w →
    V.isPrefixOf (t ++ w) = V.isPrefixOf t := by
  intro V
  induction V with
  | nil =>
    intro t w _ _
    cases t <;> cases w <;> rfl
  | cons v V ih =>
    intro t w hV hw
    cases t with
    | nil =>
      cases w with
      | nil => rfl
      | cons o w2 =>
        obtain ⟨_, hol⟩ := hw o rfl
        show ((v == o) && V.isPrefixOf w2) = false
        have hne : (v == o) = false := by
          refine beq_eq_false_iff_ne.mpr ?_
          intro he
          subst he
          rw [hV v (by simp)] at hol
          cases hol
        rw [hne, Bool.false_and]
    | cons x t2 =>
      show ((v == x) && V.isPrefixOf (t2 ++ w)) = ((v == x) && V.isPrefixOf t2)
      rw [ih t2 w (fun c hc => hV c (by simp [hc])) hw]

theorem drop_append_of_isPfx {V t : List Char} (h : V.isPrefixOf t = true)
    (w : List Char) : (t ++ w).drop V.length = t.drop V.length ++ w := by
  obtain ⟨k, hk⟩ := ( List.isPrefixOf_iff_prefix).mp h
  subst hk
  rw [List.append_assoc, List.drop_left, List.drop_left]

/-- Appending an opaque-headed continuation changes a `tryWords` scan only by
carrying the continuation inside the remainder. -/
theorem tryWords_append : ∀ (L : List (List Char)),
    (∀ V ∈ L, ∀ c ∈ V, isLetter c = true) →
    ∀ (t w : List Char), opaqueHead w →
      (tryWords L t = none → tryWords L (t ++ w) = none) ∧
      (∀ W r, tryWords L t = some (W, r) → tryWords L (t ++ w) = some (W, r ++ w)) := by
  intro L
  induction L with
  | nil =>
    intro _ t w _
    exact ⟨fun _ => rfl, fun W r h => by cases h⟩
  | cons V L ih =>
    intro hlet t w hw
    obtain ⟨ihn, ihs⟩ := ih (fun U hU c hc => hlet U (by simp [hU]) c hc) t w hw
    have key : (tryWords (V :: L) t = tryWords L t ∧
          tryWords (V :: L) (t ++ w) = tryWords L (t ++ w)) ∨
        (∃ r, tryWords (V :: L) t = some (V, r) ∧
          tryWords (V :: L) (t ++ w) = some (V, r ++ w)) := by
      by_cases hpre : V.isPrefixOf t = true
      · have hpre2 : V.isPrefixOf (t ++ w) = true := by
          rw [isPrefixOf_append_opq V t w (hlet V (by simp)) hw]
          exact hpre
        have e1 : tryWords (V :: L) t
            = match t.drop V.length with
              | s :: r => if isPyWs s then some (V, r) else tryWords L t
              | [] => tryWords L t := by
          rw [tryWords_cons, if_pos hpre]
        have e2 : tryWords (V :: L) (t ++ w)
            = match t.drop V.length ++ w with
              | s :: r => if isPyWs s then some (V, r) else tryWords L (t ++ w)
              | [] => tryWords L (t ++ w) := by
          rw [tryWords_cons, if_pos hpre2, drop_append_of_isPfx hpre]
        cases hdrop : t.drop V.length with
        | nil =>
          rw [hdrop] at e1 e2
          simp only [List.nil_append] at e2
          cases hwc : w with
          | nil =>
            subst hwc
            exact Or.inl ⟨e1, e2⟩
          | cons o w2 =>
            subst hwc
            obtain ⟨how, _⟩ := hw o rfl
            have e3 : tryWords (V :: L) (t ++ o :: w2)
                = if isPyWs o then some (V, w2) else tryWords L (t ++ o :: w2) := e2
            rw [if_neg (by simp [how])] at e3
            exact Or.inl ⟨e1, e3⟩
        | cons s r =>
          rw [hdrop] at e1 e2
          have e1b : tryWords (V :: L) t
              = if isPyWs s then some (V, r) else tryWords L t := e1
          have e2b : tryWords (V :: L) (t ++ w)
              = if isPyWs s then some (V, r ++ w) else tryWords L (t ++ w) := e2
          by_cases hws : isPyWs s = true
          · rw [if_pos hws] at e1b e2b
            exact Or.inr ⟨r, e1b, e2b⟩
          · rw [if_neg hws] at e1b e2b
            exact Or.inl ⟨e1b, e2b⟩
      · have hpre2 : ¬(V.isPrefixOf (t ++ w) = true) := by
          rw [isPrefixOf_append_opq V t w (hlet V (by simp)) hw]
          exact hpre
        have e1 : tryWords (V :: L) t = tryWords L t := by
          rw [tryWords_cons, if_neg hpre]
        have e2 : tryWords (V :: L) (t ++ w) = tryWords L (t ++ w) := by
          rw [tryWords_cons, if_neg hpre2]
        exact Or.inl ⟨e1, e2⟩
    constructor
    · intro hnone
      rcases key with ⟨k1, k2⟩ | ⟨r, k1, k2⟩
      · rw [k2]
        rw [k1] at hnone
        exact ihn hnone
      · rw [k1] at hnone
        cases hnone
    · intro W r hsome
      rcases key with ⟨k1, k2⟩ | ⟨r2, k1, k2⟩
      · rw [k2]
        rw [k1] at hsome
        exact ihs W r hsome
      · rw [k1] at hsome
        injection hsome with h1
        injection h1 with h2 h3
        subst h2
        subst h3
        exact k2

/-! ### Distributivity of the question scan over opaque boundaries -/

theorem dropWhile_append_opq (v w : List Char) (hw : opaqueHead w) :
    (v ++ w).dropWhile isPyWs = v.dropWhile isPyWs ++ w := by
  induction v with
  | nil =>
    simp only [List.nil_append]
    cases w with
    | nil => rfl
    | cons o w2 =>
      obtain ⟨how, _⟩ := hw o rfl
      rw [List.dropWhile_cons_of_neg (by simp [how]), List.dropWhile_nil,
        List.nil_append]
  | cons x v ih =>
    by_cases hx : isPyWs x = true
    · rw [List.cons_append, List.dropWhile_cons_of_pos hx,
        List.dropWhile_cons_of_pos hx, ih]
    · rw [List.cons_append, List.dropWhile_cons_of_neg (by simp [hx]),
        List.dropWhile_cons_of_neg (by simp [hx])]
      simp

/-- A single question-pattern match step is insensitive to an opaque
continuation, which is simply carried inside the remainder. -/
theorem mQuestion_append (c : Char) (v w : List Char) (hw : opaqueHead w) :
    (mQuestion (c :: v) = none → mQuestion (c :: (v ++ w)) = none) ∧
    (∀ e r, mQuestion (c :: v) = some (e, r) →
      mQuestion (c :: (v ++ w)) = some (e, r ++ w)) := by
  by_cases hc : isPunct c = true
  · have e1 : mQuestion (c :: v)
        = match tryWords qwords (v.dropWhile isPyWs) with
          | some (W, r) => some (c :: '\n' :: '\n' :: (W ++ [' ']), r)
          | none => none := by
      have e0 : mQuestion (c :: v)
          = if isPunct c = true then
              match tryWords qwords (v.dropWhile isPyWs) with
              | some (W, r) => some (c :: '\n' :: '\n' :: (W ++ [' ']), r)
              | none => none
            else none := rfl
      rw [e0, if_pos hc]
    have e2 : mQuestion (c :: (v ++ w))
        = match tryWords qwords (v.dropWhile isPyWs ++ w) with
          | some (W, r) => some (c :: '\n' :: '\n' :: (W ++ [' ']), r)
          | none => none := by
      have e0 : mQuestion (c :: (v ++ w))
          = if isPunct c = true then
              match tryWords qwords ((v ++ w).dropWhile isPyWs) with
              | some (W, r) => some (c :: '\n' :: '\n' :: (W ++ [' ']), r)
              | none => none
            else none := rfl
      rw [e0, if_pos hc, dropWhile_append_opq v w hw]
    obtain ⟨twn, tws⟩ := tryWords_append qwords qwords_letters
      (v.dropWhile isPyWs) w hw
    constructor
    · intro hnone
      rw [e1] at hnone
      rw [e2]
      cases htw : tryWords qwords (v.dropWhile isPyWs) with
      | none => rw [twn htw]
      | some p =>
        rw [htw] at hnone
        cases hnone
    · intro e r hsome
      rw [e1] at hsome
      cases htw : tryWords qwords (v.dropWhile isPyWs) with
      | none =>
        rw [htw] at hsome
        cases hsome
      | some p =>
        obtain ⟨W, r2⟩ := p
        rw [htw] at hsome
        have hsome2 : some ((c :: '\n' :: '\n' :: (W ++ [' ']) : List Char), r2)
            = some (e, r) := hsome
        injection hsome2 with h1
        injection h1 with he hr
        subst he
        subst hr
        rw [e2, tws W r2 htw]
  · constructor
    · intro _
      have e0 : mQuestion (c :: (v ++ w))
          = if isPunct c = true then
              match tryWords qwords ((v ++ w).dropWhile isPyWs) with
              | some (W, r) => some (c :: '\n' :: '\n' :: (W ++ [' ']), r)
              | none => none
            else none := rfl
      rw [e0, if_neg hc]
    · intro e r hsome
      have e0 : mQuestion (c :: v)
          = if isPunct c = true then
              match tryWords qwords (v.dropWhile isPyWs) with
              | some (W, r) => some (c :: '\n' :: '\n' :: (W ++ [' ']), r)
              | none => none
            else none := rfl
      rw [e0, if_neg hc] at hsome
      cases hsome

/-- The question scan distributes over an opaque boundary: matches never cross
a character that is neither whitespace nor a letter, so the scan of the two
sides is independent. -/
theorem subQ_split : ∀ (v w : List Char), opaqueHead w →
    applySub mQuestion (v ++ w) = applySub mQuestion v ++ applySub mQuestion w := by
  have key : ∀ (n : Nat) (v : List Char), v.length ≤ n → ∀ (w : List Char),
      opaqueHead w →
      applySub mQuestion (v ++ w) = applySub mQuestion v ++ applySub mQuestion w := by
    intro n
    induction n with
    | zero =>
      intro v hv w _
      have hve : v = [] := List.length_eq_zero.mp (Nat.le_zero.mp hv)
      subst hve
      rw [applySub_nil, List.nil_append, List.nil_append]
    | succ n ih =>
      intro v hv w hw
      cases v with
      | nil => rw [applySub_nil, List.nil_append, List.nil_append]
      | cons c v2 =>
        obtain ⟨hnone, hsome⟩ := mQuestion_append c v2 w hw
        cases hm : mQuestion (c :: v2) with
        | none =>
          rw [List.cons_append, applySub_cons_none (hnone hm), applySub_cons_none hm]
          have hlen : v2.length ≤ n := by
            simp only [List.length_cons] at hv
            omega
          rw [ih v2 hlen w hw, List.cons_append]
        | some p =>
          obtain ⟨e, r⟩ := p
          have h2 := hsome e r hm
          have hrlen : r.length ≤ n := by
            have hlt := good_mQuestion _ _ hm
            simp only [List.length_cons] at hlt hv
            omega
          rw [List.cons_append, applySub_cons_some good_mQuestion h2,
            applySub_cons_some good_mQuestion hm]
          rw [ih r hrlen w hw, List.append_assoc]
  intro v w hw
  exact key v.length v le_rfl w hw

/-! ### Idempotence of the question scan -/

theorem ws_not_punct {c : Char} (h : isPyWs c = true) : isPunct c = false := by
  cases hp : isPunct c
  · rfl
  · rw [punct_not_ws hp] at h
    cases h

theorem prefix_stop_le {V pre : List Char} {P : Char} {rest : List Char}
    (h : V.isPrefixOf (pre ++ P :: rest) = true)
    (hV : ∀ c ∈ V, isLetter c = true) (hP : isLetter P = false) :
    V <+: pre := by
  have hp : V <+: pre ++ P :: rest := ( List.isPrefixOf_iff_prefix).mp h
  have hq : pre ++ [P] <+: pre ++ P :: rest := ⟨rest, by simp⟩
  rcases List.prefix_or_prefix_of_prefix hp hq with h1 | h1
  · obtain ⟨k, hk⟩ := h1
    rcases List.eq_nil_or_concat k with hke | ⟨k2, a, hka⟩
    · subst hke
      rw [List.append_nil] at hk
      subst hk
      rw [hV P (by simp)] at hP
      cases hP
    · subst hka
      rw [ List.concat_eq_append, ← List.append_assoc] at hk
      obtain ⟨h2, _⟩ := List.append_inj' hk rfl
      exact ⟨k2, h2⟩
  · have hPV : P ∈ V := h1.subset (by simp)
    rw [hV P hPV] at hP
    cases hP

theorem isPrefixOf_stop : ∀ (V pre : List Char) (P : Char) (rest rest2 : List Char),
    (∀ c ∈ V, isLetter c = true) → isLetter P = false →
    V.isPrefixOf (pre ++ P :: rest) = V.isPrefixOf (pre ++ P :: rest2) := by
  intro V
  induction V with
  | nil =>
    intro pre P rest rest2 _ _
    cases pre <;> rfl
  | cons v V ih =>
    intro pre P rest rest2 hV hP
    cases pre with
    | nil =>
      show ((v == P) && V.isPrefixOf rest) = ((v == P) && V.isPrefixOf rest2)
      have hne : (v == P) = false := by
        refine beq_eq_false_iff_ne.mpr ?_
        intro he
        subst he
        rw [hV v (by simp)] at hP
        cases hP
      rw [hne, Bool.false_and, Bool.false_and]
    | cons x pre2 =>
      show ((v == x) && V.isPrefixOf (pre2 ++ P :: rest))
          = ((v == x) && V.isPrefixOf (pre2 ++ P :: rest2))
      rw [ih pre2 P rest rest2 (fun c hc => hV c (by simp [hc])) hP]

/-- A failing alternation at a punctuation boundary keeps failing when the text
beyond the boundary changes. -/
theorem tryWords_stop : ∀ (L : List (List Char)),
    (∀ V ∈ L, ∀ c ∈ V, isLetter c = true) →
    ∀ (pre : List Char) (P : Char) (rest rest2 : List Char),
      isLetter P = false → isPyWs P = false →
      tryWords L (pre ++ P :: rest) = none → tryWords L (pre ++ P :: rest2) = none := by
  intro L
  induction L with
  | nil =>
    intro _ pre P rest rest2 _ _ _
    rfl
  | cons V L ih =>
    intro hlet pre P rest rest2 hP hPws hnone
    have htail := ih (fun U hU c hc => hlet U (by simp [hU]) c hc) pre P rest rest2 hP hPws
    by_cases hpre : V.isPrefixOf (pre ++ P :: rest) = true
    · have hpre2 : V.isPrefixOf (pre ++ P :: rest2) = true := by
        rw [← isPrefixOf_stop V pre P rest rest2 (hlet V (by simp)) hP]
        exact hpre
      rw [tryWords_cons, if_pos hpre] at hnone
      rw [tryWords_cons, if_pos hpre2]
      obtain ⟨k, hk⟩ := prefix_stop_le hpre (hlet V (by simp)) hP
      have hd1 : (pre ++ P :: rest).drop V.length = k ++ P :: rest := by
        rw [← hk, List.append_assoc, List.drop_left]
      have hd2 : (pre ++ P :: rest2).drop V.length = k ++ P :: rest2 := by
        rw [← hk, List.append_assoc, List.drop_left]
      rw [hd1] at hnone
      rw [hd2]
      cases k with
      | nil =>
        have hnone2 : (if isPyWs P then some (V, rest) else tryWords L (pre ++ P :: rest))
            = none := hnone
        rw [if_neg (by simp [hPws])] at hnone2
        show (if isPyWs P then some (V, rest2) else tryWords L (pre ++ P :: rest2)) = none
        rw [if_neg (by simp [hPws])]
        exact htail hnone2
      | cons k0 kt =>
        have hnone2 : (if isPyWs k0 then some (V, kt ++ P :: rest)
            else tryWords L (pre ++ P :: rest)) = none := hnone
        show (if isPyWs k0 then some (V, kt ++ P :: rest2)
            else tryWords L (pre ++ P :: rest2)) = none
        by_cases hk0 : isPyWs k0 = true
        · rw [if_pos hk0] at hnone2
          cases hnone2
        · rw [if_neg hk0] at hnone2
          rw [if_neg hk0]
          exact htail hnone2
    · have hpre2 : ¬(V.isPrefixOf (pre ++ P :: rest2) = true) := by
        rw [← isPrefixOf_stop V pre P rest rest2 (hlet V (by simp)) hP]
        exact hpre
      rw [tryWords_cons, if_neg hpre] at hnone
      rw [tryWords_cons, if_neg hpre2]
      exact htail hnone

/-- The question scan either changes nothing, or its output agrees with the
input up to and including the punctuation character of the first match. -/
theorem subQ_firstFire : ∀ v, applySub mQuestion v = v ∨
    ∃ pre P rest out, isPunct P = true ∧ v = pre ++ P :: rest ∧
      applySub mQuestion v = pre ++ P :: out := by
  refine scanner_induction mQuestion good_mQuestion _ ?_ ?_ ?_
  · exact Or.inl applySub_nil
  · intro c cs p hmc _
    obtain ⟨c2, cs2, w, r, hl, hc, htw, hp⟩ := mQuestion_some hmc
    injection hl with e1 e2
    subst e1
    subst e2
    subst hp
    refine Or.inr ⟨[], c, cs,
      '\n' :: '\n' :: ((w ++ [' ']) ++ applySub mQuestion r), hc, rfl, ?_⟩
    rw [applySub_cons_some good_mQuestion hmc]
    simp
  · intro c cs hmc ih
    rw [applySub_cons_none hmc]
    rcases ih with h | ⟨pre, P, rest, out, hP, hcs, hout⟩
    · exact Or.inl (by rw [h])
    · refine Or.inr ⟨c :: pre, P, rest, out, hP, by rw [hcs]; simp, ?_⟩
      rw [hout]
      simp

/-- A failed question match at a punctuation head keeps failing after the tail
is rewritten by the question scan. -/
theorem mQuestion_none_subQ {c : Char} {cs : List Char}
    (h : mQuestion (c :: cs) = none) :
    mQuestion (c :: applySub mQuestion cs) = none := by
  by_cases hc : isPunct c = true
  · have e0 : mQuestion (c :: cs)
        = if isPunct c = true then
            match tryWords qwords (cs.dropWhile isPyWs) with
            | some (W, r) => some (c :: '\n' :: '\n' :: (W ++ [' ']), r)
            | none => none
          else none := rfl
    rw [e0, if_pos hc] at h
    have hnone : tryWords qwords (cs.dropWhile isPyWs) = none := by
      cases htw : tryWords qwords (cs.dropWhile isPyWs) with
      | none => rfl
      | some p =>
        obtain ⟨W, r⟩ := p
        rw [htw] at h
        cases h
    have e1 : mQuestion (c :: applySub mQuestion cs)
        = if isPunct c = true then
            match tryWords qwords ((applySub mQuestion cs).dropWhile isPyWs) with
            | some (W, r) => some (c :: '\n' :: '\n' :: (W ++ [' ']), r)
            | none => none
          else none := rfl
    rw [e1, if_pos hc]
    have hsplit : applySub mQuestion cs
        = cs.takeWhile isPyWs ++ applySub mQuestion (cs.dropWhile isPyWs) := by
      conv_lhs => rw [← List.takeWhile_append_dropWhile (p := isPyWs) (l := cs)]
      exact applySub_skip isPyWs
        (fun d ds hd => mQuestion_none_of_not_punct ds (ws_not_punct hd)) _ _
        (fun d hd => List.mem_takeWhile_imp hd)
    have hws : ∀ d ∈ cs.takeWhile isPyWs, isPyWs d = true :=
      fun d hd => List.mem_takeWhile_imp hd
    rw [hsplit, dropWhile_append_all _ _ hws]
    cases hv : cs.dropWhile isPyWs with
    | nil =>
      rw [applySub_nil, List.dropWhile_nil,
        tryWords_nil_input qwords qwords_ne_nil]
    | cons h0 t =>
      have hh0 : isPyWs h0 = false := dropWhile_head_false hv
      have hhead : (applySub mQuestion (h0 :: t)).head? = some h0 := by
        rw [subQ_head]
        rfl
      obtain ⟨t2, ht2⟩ := cons_of_head? hhead
      rw [ht2, List.dropWhile_cons_of_neg (by simp [hh0])]
      rw [← ht2]
      rcases subQ_firstFire (h0 :: t) with hid | ⟨pre, P, rest, out, hP, hin, hout⟩
      · rw [hid]
        rw [hv] at hnone
        rw [hnone]
      · rw [hout]
        rw [hv, hin] at hnone
        rw [tryWords_stop qwords qwords_letters pre P rest out
          (punct_not_letter hP) (punct_not_ws hP) hnone]
  · exact mQuestion_none_of_not_punct _ (by simpa using hc)

/-- The question substitution is idempotent. -/
theorem subQ_idem : ∀ v, applySub mQuestion (applySub mQuestion v) = applySub mQuestion v := by
  have key : ∀ (n : Nat) (v : List Char), v.length ≤ n →
      applySub mQuestion (applySub mQuestion v) = applySub mQuestion v := by
    intro n
    induction n with
    | zero =>
      intro v hv
      have hve : v = [] := List.length_eq_zero.mp (Nat.le_zero.mp hv)
      subst hve
      rw [applySub_nil, applySub_nil]
    | succ n ih =>
      intro v hv
      cases v with
      | nil => rw [applySub_nil, applySub_nil]
      | cons c cs =>
        cases hm : mQuestion (c :: cs) with
        | none =>
          rw [applySub_cons_none hm, applySub_cons_none (mQuestion_none_subQ hm)]
          have hlen : cs.length ≤ n := by
            simp only [List.length_cons] at hv
            omega
          rw [ih cs hlen]
        | some p =>
          obtain ⟨c2, cs2, w, r, hl, hc, htw, hp⟩ := mQuestion_some hm
          injection hl with e1 e2
          subst e1
          subst e2
          subst hp
          obtain ⟨hwin, _, s, _, _⟩ := tryWords_some htw
          rw [applySub_cons_some good_mQuestion hm]
          obtain ⟨whd, wtl, hw⟩ : ∃ whd wtl, w = whd :: wtl := by
            cases w with
            | nil => exact absurd rfl (qwords_ne_nil [] hwin)
            | cons a b => exact ⟨a, b, rfl⟩
          subst hw
          have heq : ((c :: '\n' :: '\n' :: (whd :: wtl ++ [' ']) : List Char), r).1
              ++ applySub mQuestion r
              = c :: '\n' :: '\n' :: (whd :: wtl ++ ' ' :: applySub mQuestion r) := by
            simp
          rw [heq]
          have hwhd : isPyWs whd = false :=
            letter_not_ws (qwords_letters (whd :: wtl) hwin whd (by simp))
          have hwneg : ¬(isPyWs whd = true) := by simp [hwhd]
          have hscr : List.dropWhile isPyWs (whd :: wtl ++ ' ' :: applySub mQuestion r)
              = whd :: wtl ++ ' ' :: applySub mQuestion r := by
            rw [List.cons_append, List.dropWhile_cons_of_neg hwneg]
          have hfire : mQuestion
                (c :: '\n' :: '\n' :: (whd :: wtl ++ ' ' :: applySub mQuestion r))
              = some (c :: '\n' :: '\n' :: (whd :: wtl ++ [' ']), applySub mQuestion r) := by
            have e0 : mQuestion
                  (c :: '\n' :: '\n' :: (whd :: wtl ++ ' ' :: applySub mQuestion r))
                = if isPunct c = true then
                    match tryWords qwords
                        (('\n' :: '\n' :: (whd :: wtl ++ ' ' :: applySub mQuestion r)).dropWhile
                          isPyWs) with
                    | some (W, r2) => some (c :: '\n' :: '\n' :: (W ++ [' ']), r2)
                    | none => none
                  else none := rfl
            have hrun : tryWords qwords (whd :: wtl ++ ' ' :: applySub mQuestion r)
                = some (whd :: wtl, applySub mQuestion r) :=
              tryWords_run qwords qwords_letters (whd :: wtl) hwin ' '
                (applySub mQuestion r) (by decide)
            rw [e0, if_pos hc, List.dropWhile_cons_of_pos (by decide),
              List.dropWhile_cons_of_pos (by decide), hscr, hrun]
          rw [applySub_cons_some good_mQuestion hfire]
          have hrlen : r.length ≤ n := by
            have hlt := good_mQuestion _ _ hm
            simp only [List.length_cons] at hlt hv
            omega
          rw [ih r hrlen]
          simp
  intro v
  exact key v.length v le_rfl

/-! ### Bullet blocks and the normal form before a bullet -/

/-- Effect of `([^•])\s*•` on the text before a bullet: the leftmost position
whose entire remainder within the prefix is whitespace is rewritten to the
character followed by two newlines, dropping the consumed whitespace. -/
def tailNorm : List Char → List Char
  | [] => []
  | c :: cs =>
    match cs.dropWhile isPyWs with
    | [] => [c, '\n', '\n']
    | _ :: _ => c :: tailNorm cs

theorem tailNorm_cons (c : Char) (cs : List Char) :
    tailNorm (c :: cs)
      = match cs.dropWhile isPyWs with
        | [] => [c, '\n', '\n']
        | _ :: _ => c :: tailNorm cs := rfl

theorem tailNorm_append_ws : ∀ (X : List Char) (d : Char) (w : List Char),
    isPyWs d = false → (∀ c ∈ w, isPyWs c = true) →
    tailNorm (X ++ d :: w) = X ++ [d, '\n', '\n'] := by
  intro X
  induction X with
  | nil =>
    intro d w hd hw
    have h1 : w.dropWhile isPyWs = [] := List.dropWhile_eq_nil_iff.mpr hw
    rw [List.nil_append, tailNorm_cons, h1]
    rfl
  | cons x X ih =>
    intro d w hd hw
    rw [List.cons_append, tailNorm_cons]
    cases hdw : (X ++ d :: w).dropWhile isPyWs with
    | nil =>
      have h2 := List.dropWhile_eq_nil_iff.mp hdw d (by simp)
      rw [hd] at h2
      cases h2
    | cons a t =>
      rw [ih d w hd hw]
      simp

theorem tailNorm_allws (c : Char) (cs : List Char) (h : ∀ x ∈ cs, isPyWs x = true) :
    tailNorm (c :: cs) = [c, '\n', '\n'] := by
  rw [tailNorm_cons, List.dropWhile_eq_nil_iff.mpr h]

/-- If the prefix has a non-whitespace character, its `tailNorm` ends in that
character followed by two newlines. -/
theorem tailNorm_form : ∀ (a : List Char), (∃ x ∈ a, isPyWs x = false) →
    ∃ g d, isPyWs d = false ∧ tailNorm a = g ++ [d, '\n', '\n'] := by
  intro a
  induction a with
  | nil =>
    intro h
    obtain ⟨x, hx, _⟩ := h
    cases hx
  | cons c cs ih =>
    intro h
    obtain ⟨x, hx, hxw⟩ := h
    cases hdw : cs.dropWhile isPyWs with
    | nil =>
      have hcsws : ∀ y ∈ cs, isPyWs y = true := List.dropWhile_eq_nil_iff.mp hdw
      have hxc : x = c := by
        rcases List.mem_cons.mp hx with h1 | h1
        · exact h1
        · rw [hcsws x h1] at hxw
          cases hxw
      subst hxc
      refine ⟨[], x, hxw, ?_⟩
      rw [tailNorm_cons, hdw]
      rfl
    | cons d t =>
      have hcs : ∃ y ∈ cs, isPyWs y = false :=
        ⟨d, mem_of_mem_dropWhile (by rw [hdw]; simp), dropWhile_head_false hdw⟩
      obtain ⟨g, d2, hd2, hg⟩ := ih hcs
      refine ⟨c :: g, d2, hd2, ?_⟩
      rw [tailNorm_cons, hdw, hg]
      simp

theorem tailNorm_no_bullet : ∀ a, '•' ∉ a → '•' ∉ tailNorm a := by
  intro a
  induction a with
  | nil =>
    intro _ hc
    cases hc
  | cons c cs ih =>
    intro h
    cases hdw : cs.dropWhile isPyWs with
    | nil =>
      rw [tailNorm_cons, hdw]
      intro hc
      simp only [List.mem_cons] at hc
      rcases hc with h1 | h1 | h1 | h1
      · exact h (by rw [h1]; simp)
      · exact absurd h1 (by decide)
      · exact absurd h1 (by decide)
      · cases h1
    | cons d t =>
      rw [tailNorm_cons, hdw]
      intro hc
      rcases List.mem_cons.mp hc with h1 | h1
      · exact h (by rw [h1]; simp)
      · exact ih (fun hb => h (by simp [hb])) h1

/-- The bullet-any substitution on a block: the prefix before the first bullet
becomes its `tailNorm`, the bullet is re-emitted, and the scan continues
independently after the bullet. -/
theorem subBA_block : ∀ (A b : List Char), '•' ∉ A →
    applySub mBulletAny (A ++ '•' :: b)
      = tailNorm A ++ '•' :: applySub mBulletAny b := by
  intro A
  induction A with
  | nil =>
    intro b _
    rw [List.nil_append]
    have hnone : mBulletAny ('•' :: b) = none := by
      have e0 : mBulletAny ('•' :: b)
          = if ('•' : Char) ≠ '•' then
              match b.dropWhile isPyWs with
              | '•' :: r => some (['•', '\n', '\n', '•'], r)
              | _ => none
            else none := rfl
      rw [e0, if_neg (by simp)]
    rw [applySub_cons_none hnone]
    rfl
  | cons c A ih =>
    intro b hnb
    have hcnb : c ≠ '•' := fun he => hnb (by simp [he])
    have hAnb : '•' ∉ A := fun hb => hnb (by simp [hb])
    have e0 : mBulletAny (c :: (A ++ '•' :: b))
        = if c ≠ '•' then
            match (A ++ '•' :: b).dropWhile isPyWs with
            | '•' :: r => some ([c, '\n', '\n', '•'], r)
            | _ => none
          else none := rfl
    cases hdw : A.dropWhile isPyWs with
    | nil =>
      have hAws : ∀ y ∈ A, isPyWs y = true := List.dropWhile_eq_nil_iff.mp hdw
      have hd2 : (A ++ '•' :: b).dropWhile isPyWs = '•' :: b := by
        rw [dropWhile_append_all A ('•' :: b) hAws,
          List.dropWhile_cons_of_neg (by decide)]
      have hfire : mBulletAny (c :: (A ++ '•' :: b)) = some ([c, '\n', '\n', '•'], b) := by
        rw [e0, if_pos hcnb, hd2]
        rfl
      rw [List.cons_append, applySub_cons_some good_mBulletAny hfire,
        tailNorm_cons, hdw]
      rfl
    | cons d t =>
      have hdnb : d ≠ '•' := fun he =>
        hAnb (he ▸ mem_of_mem_dropWhile (by rw [hdw]; simp))
      have hd2 : (A ++ '•' :: b).dropWhile isPyWs = d :: (t ++ '•' :: b) := by
        rw [dropWhile_append_opq A ('•' :: b) (opaqueHead_bullet b), hdw]
        simp
      have hnone : mBulletAny (c :: (A ++ '•' :: b)) = none := by
        rw [e0, if_pos hcnb, hd2]
        split
        · rename_i r heq
          injection heq with h1 _
          exact absurd h1 hdnb
        · rfl
      rw [List.cons_append, applySub_cons_none hnone, ih b hAnb, tailNorm_cons, hdw]
      simp

/-! ### Tail dichotomy of the question scan on a block normal form -/

theorem suffix_eq_of_length {l1 l2 m : List Char} (h1 : l1 <:+ m) (h2 : l2 <:+ m)
    (hlen : l1.length = l2.length) : l1 = l2 := by
  rcases List.suffix_or_suffix_of_suffix h1 h2 with h | h
  · exact h.eq_of_length hlen
  · exact (h.eq_of_length hlen.symm).symm

theorem eq_append_drop_of_isPfx {W t : List Char} (h : W.isPrefixOf t = true) :
    t = W ++ t.drop W.length := by
  obtain ⟨k, hk⟩ := ( List.isPrefixOf_iff_prefix).mp h
  subst hk
  rw [List.drop_left]

theorem subQ_nn : applySub mQuestion ['\n', '\n'] = ['\n', '\n'] := by
  rw [applySub_cons_none (mQuestion_none_of_not_punct _ (by decide)),
    applySub_cons_none (mQuestion_none_of_not_punct _ (by decide)), applySub_nil]

theorem subQ_n : applySub mQuestion ['\n'] = ['\n'] := by
  rw [applySub_cons_none (mQuestion_none_of_not_punct _ (by decide)), applySub_nil]

/-- Scanning a text that ends in a non-whitespace character and two newlines:
either the output still ends with a non-whitespace character and two newlines,
or the last match consumed the first trailing newline and the output ends with
an emitted question pattern followed by the remaining newline. -/
theorem subQ_tail_dich : ∀ (g : List Char) (d : Char), isPyWs d = false →
    (∃ Z e, isPyWs e = false ∧
      applySub mQuestion (g ++ [d, '\n', '\n']) = Z ++ [e, '\n', '\n']) ∨
    (∃ Z P W, isPunct P = true ∧ W ∈ qwords ∧
      applySub mQuestion (g ++ [d, '\n', '\n'])
        = Z ++ P :: '\n' :: '\n' :: (W ++ [' ', '\n'])) := by
  have key : ∀ (n : Nat) (g : List Char), g.length ≤ n → ∀ (d : Char),
      isPyWs d = false →
      (∃ Z e, isPyWs e = false ∧
        applySub mQuestion (g ++ [d, '\n', '\n']) = Z ++ [e, '\n', '\n']) ∨
      (∃ Z P W, isPunct P = true ∧ W ∈ qwords ∧
        applySub mQuestion (g ++ [d, '\n', '\n'])
          = Z ++ P :: '\n' :: '\n' :: (W ++ [' ', '\n'])) := by
    intro n
    induction n with
    | zero =>
      intro g hg d hd
      have hge : g = [] := List.length_eq_zero.mp (Nat.le_zero.mp hg)
      subst hge
      have hmd : mQuestion (d :: ['\n', '\n']) = none := by
        by_cases hp : isPunct d = true
        · have e0 : mQuestion (d :: ['\n', '\n'])
              = if isPunct d = true then
                  match tryWords qwords ((['\n', '\n'] : List Char).dropWhile isPyWs) with
                  | some (W, r) => some (d :: '\n' :: '\n' :: (W ++ [' ']), r)
                  | none => none
                else none := rfl
          rw [e0, if_pos hp,
            show (['\n', '\n'] : List Char).dropWhile isPyWs = [] from rfl,
            tryWords_nil_input qwords qwords_ne_nil]
        · exact mQuestion_none_of_not_punct _ (by simpa using hp)
      refine Or.inl ⟨[], d, hd, ?_⟩
      rw [List.nil_append, show ([d, '\n', '\n'] : List Char) = d :: ['\n', '\n'] from rfl,
        applySub_cons_none hmd, subQ_nn]
    | succ n ih =>
      intro g hg d hd
      cases g with
      | nil => exact ih [] (by simp) d hd
      | cons c g2 =>
        have hg2 : g2.length ≤ n := by
          simp only [List.length_cons] at hg
          omega
        rw [List.cons_append]
        cases hm : mQuestion (c :: (g2 ++ [d, '\n', '\n'])) with
        | none =>
          rw [applySub_cons_none hm]
          rcases ih g2 hg2 d hd with ⟨Z, e, he, hQ⟩ | ⟨Z, P, W, hP, hWin, hQ⟩
          · exact Or.inl ⟨c :: Z, e, he, by rw [hQ]; rfl⟩
          · exact Or.inr ⟨c :: Z, P, W, hP, hWin, by rw [hQ]; rfl⟩
        | some p =>
          obtain ⟨c2, cs2, W, r, hl, hc, htw, hp⟩ := mQuestion_some hm
          injection hl with e1 e2
          subst e1
          subst e2
          subst hp
          obtain ⟨hwin, hwpre, s, hdrop, hs⟩ := tryWords_some htw
          rw [applySub_cons_some good_mQuestion hm]
          have hred : ((c :: '\n' :: '\n' :: (W ++ [' ']) : List Char), r).1
              ++ applySub mQuestion ((c :: '\n' :: '\n' :: (W ++ [' ']) : List Char), r).2
              = (c :: '\n' :: '\n' :: (W ++ [' '])) ++ applySub mQuestion r := rfl
          rw [hred]
          have hsr : s :: r <:+ c :: (g2 ++ [d, '\n', '\n']) := by
            have h1 : s :: r <:+ List.dropWhile isPyWs (g2 ++ [d, '\n', '\n']) := by
              rw [← hdrop]
              exact List.drop_suffix _ _
            exact (h1.trans (dropWhile_suffix isPyWs _)).trans (List.suffix_cons c _)
          have hrm : r <:+ c :: (g2 ++ [d, '\n', '\n']) :=
            (List.suffix_cons s r).trans hsr
          have htail3 : [d, '\n', '\n'] <:+ c :: (g2 ++ [d, '\n', '\n']) := by
            refine ⟨c :: g2, ?_⟩
            rfl
          rcases List.suffix_or_suffix_of_suffix hrm htail3 with hcase | hcase
          · obtain ⟨u, hu⟩ := hcase
            cases u with
            | nil =>
              have hr3 : r = [d, '\n', '\n'] := by simpa using hu
              subst hr3
              rcases ih [] (by simp) d hd with ⟨Z, e, he, hQ⟩ | ⟨Z, P, W2, hP, hW2, hQ⟩
              · rw [List.nil_append] at hQ
                exact Or.inl ⟨(c :: '\n' :: '\n' :: (W ++ [' '])) ++ Z, e, he,
                  by rw [hQ, List.append_assoc]⟩
              · rw [List.nil_append] at hQ
                exact Or.inr ⟨(c :: '\n' :: '\n' :: (W ++ [' '])) ++ Z, P, W2, hP, hW2,
                  by rw [hQ, List.append_assoc]⟩
            | cons u0 u1 =>
              injection hu with hu0 hu1
              cases u1 with
              | nil =>
                have hr2 : r = ['\n', '\n'] := by simpa using hu1
                subst hr2
                have hsrlen : (s :: '\n' :: '\n' :: ([] : List Char)).length
                    = ([d, '\n', '\n'] : List Char).length := rfl
                have := suffix_eq_of_length hsr htail3 hsrlen
                injection this with hsd _
                rw [← hsd] at hd
                rw [hs] at hd
                cases hd
              | cons u2 u3 =>
                injection hu1 with hu2 hu3
                cases u3 with
                | nil =>
                  have hr1 : r = ['\n'] := by simpa using hu3
                  subst hr1
                  refine Or.inr ⟨[], c, W, hc, hwin, ?_⟩
                  rw [subQ_n]
                  simp
                | cons u4 u5 =>
                  injection hu3 with hu4 hu5
                  have h0 : u5 ++ r = [] := by simpa using hu5
                  obtain ⟨hu5n, hrn⟩ := List.append_eq_nil.mp h0
                  subst hrn
                  have ht : List.dropWhile isPyWs (g2 ++ [d, '\n', '\n'])
                      = W ++ [s] := by
                    have h1 := eq_append_drop_of_isPfx hwpre
                    rw [hdrop] at h1
                    exact h1
                  have htsuf : W ++ [s] <:+ c :: (g2 ++ [d, '\n', '\n']) := by
                    rw [← ht]
                    exact (dropWhile_suffix isPyWs _).trans (List.suffix_cons c _)
                  have htail2 : ['\n', '\n'] <:+ c :: (g2 ++ [d, '\n', '\n']) := by
                    refine ⟨c :: g2 ++ [d], ?_⟩
                    simp
                  rcases List.suffix_or_suffix_of_suffix htsuf htail2 with hx | hx
                  · have hWlen : W ≠ [] := qwords_ne_nil W hwin
                    have hlen1 : (W ++ [s]).length ≤ 2 := hx.length_le
                    have hlen2 : 1 ≤ W.length := by
                      cases W with
                      | nil => exact absurd rfl hWlen
                      | cons a b => simp
                    have hlen3 : (W ++ [s]).length = 2 := by
                      simp at hlen1 ⊢
                      omega
                    have := hx.eq_of_length (by rw [hlen3]; rfl)
                    have hW1 : W = ['\n'] := by
                      cases W with
                      | nil => exact absurd rfl hWlen
                      | cons a b =>
                        cases b with
                        | nil =>
                          injection this with ha _
                          rw [ha]
                        | cons a2 b2 =>
                          have := congrArg List.length this
                          simp at this
                    exact absurd (qwords_letters W hwin '\n' (by rw [hW1]; simp))
                      (by decide)
                  · obtain ⟨v, hv⟩ := hx
                    have hnW : '\n' ∈ W := by
                      have h2 : v ++ ['\n'] ++ ['\n'] = W ++ [s] := by
                        rw [← hv]
                        simp
                      obtain ⟨h3, _⟩ := List.append_inj' h2 rfl
                      rw [← h3]
                      simp
                    exact absurd (qwords_letters W hwin '\n' hnW) (by decide)
          · obtain ⟨g3, hg3⟩ := hcase
            have hg3len : g3.length ≤ n := by
              have h1 : (s :: r).length ≤ (c :: (g2 ++ [d, '\n', '\n'])).length :=
                hsr.length_le
              have h2 := congrArg List.length hg3
              simp at h1 h2
              omega
            rcases ih g3 hg3len d hd with ⟨Z, e, he, hQ⟩ | ⟨Z, P, W2, hP, hW2, hQ⟩
            · rw [hg3] at hQ
              exact Or.inl ⟨(c :: '\n' :: '\n' :: (W ++ [' '])) ++ Z, e, he,
                by rw [hQ, List.append_assoc]⟩
            · rw [hg3] at hQ
              exact Or.inr ⟨(c :: '\n' :: '\n' :: (W ++ [' '])) ++ Z, P, W2, hP, hW2,
                by rw [hQ, List.append_assoc]⟩
  intro g d hd
  exact key g.length g le_rfl d hd

/-! ### The block lemma and the question/bullet cycle -/

/-- The question scan fires deterministically on an emitted normal-form tail. -/
theorem subQ_fire_tail (P : Char) (W : List Char) (s : Char) (rest : List Char)
    (hP : isPunct P = true) (hWin : W ∈ qwords) (hs : isPyWs s = true) :
    applySub mQuestion (P :: '\n' :: '\n' :: (W ++ s :: rest))
      = (P :: '\n' :: '\n' :: (W ++ [' '])) ++ applySub mQuestion rest := by
  obtain ⟨whd, wtl, hw⟩ : ∃ whd wtl, W = whd :: wtl := by
    cases W with
    | nil => exact absurd rfl (qwords_ne_nil [] hWin)
    | cons a b => exact ⟨a, b, rfl⟩
  subst hw
  have hwhd : isPyWs whd = false :=
    letter_not_ws (qwords_letters (whd :: wtl) hWin whd (by simp))
  have hwneg : ¬(isPyWs whd = true) := by simp [hwhd]
  have hscr : List.dropWhile isPyWs (whd :: wtl ++ s :: rest)
      = whd :: wtl ++ s :: rest := by
    rw [List.cons_append, List.dropWhile_cons_of_neg hwneg]
  have hrun : tryWords qwords (whd :: wtl ++ s :: rest)
      = some (whd :: wtl, rest) :=
    tryWords_run qwords qwords_letters (whd :: wtl) hWin s rest hs
  have hfire : mQuestion (P :: '\n' :: '\n' :: (whd :: wtl ++ s :: rest))
      = some (P :: '\n' :: '\n' :: (whd :: wtl ++ [' ']), rest) := by
    have e0 : mQuestion (P :: '\n' :: '\n' :: (whd :: wtl ++ s :: rest))
        = if isPunct P = true then
            match tryWords qwords
                (('\n' :: '\n' :: (whd :: wtl ++ s :: rest)).dropWhile isPyWs) with
            | some (W2, r2) => some (P :: '\n' :: '\n' :: (W2 ++ [' ']), r2)
            | none => none
          else none := rfl
    rw [e0, if_pos hP, List.dropWhile_cons_of_pos (by decide),
      List.dropWhile_cons_of_pos (by decide), hscr, hrun]
  rw [applySub_cons_some good_mQuestion hfire]

theorem mQuestion_bullet (x : List Char) : mQuestion ('•' :: x) = none :=
  mQuestion_none_of_not_punct x (by decide)

/-- The question scan of one normalized bullet block stabilizes after a single
round of re-normalization. -/
theorem blk : ∀ a : List Char,
    applySub mQuestion (tailNorm (applySub mQuestion (tailNorm a)))
      = applySub mQuestion (tailNorm a) := by
  intro a
  by_cases hnw : ∃ x ∈ a, isPyWs x = false
  · obtain ⟨g, d, hd, hg⟩ := tailNorm_form a hnw
    rw [hg]
    rcases subQ_tail_dich g d hd with ⟨Z, e, he, hQ⟩ | ⟨Z, P, W, hP, hWin, hQ⟩
    · rw [hQ]
      have ht := tailNorm_append_ws Z e ['\n', '\n'] he (by
        intro c hc
        simp only [List.mem_cons] at hc
        rcases hc with h1 | h1 | h1
        · rw [h1]; decide
        · rw [h1]; decide
        · cases h1)
      rw [ht, ← hQ]
      exact subQ_idem _
    · obtain ⟨W2, dW, hWdec⟩ : ∃ W2 dW, W = W2 ++ [dW] := by
        rcases List.eq_nil_or_concat W with h | ⟨W2, dW, h⟩
        · exact absurd h (qwords_ne_nil W hWin)
        · exact ⟨W2, dW, by rw [h, List.concat_eq_append]⟩
      have hdW : isPyWs dW = false :=
        letter_not_ws (qwords_letters W hWin dW (by rw [hWdec]; simp))
      have hre : Z ++ P :: '\n' :: '\n' :: (W ++ [' ', '\n'])
          = (Z ++ (P :: '\n' :: '\n' :: W2)) ++ dW :: [' ', '\n'] := by
        rw [hWdec]
        simp
      have hws2 : ∀ c ∈ ([' ', '\n'] : List Char), isPyWs c = true := by
        intro c hc
        simp only [List.mem_cons] at hc
        rcases hc with h1 | h1 | h1
        · rw [h1]; decide
        · rw [h1]; decide
        · cases h1
      have htn : tailNorm (Z ++ P :: '\n' :: '\n' :: (W ++ [' ', '\n']))
          = (Z ++ (P :: '\n' :: '\n' :: W2)) ++ [dW, '\n', '\n'] := by
        rw [hre]
        exact tailNorm_append_ws _ dW [' ', '\n'] hdW hws2
      have hre2 : (Z ++ (P :: '\n' :: '\n' :: W2)) ++ [dW, '\n', '\n']
          = Z ++ (P :: '\n' :: '\n' :: (W ++ ['\n', '\n'])) := by
        rw [hWdec]
        simp
      have htail1 : applySub mQuestion (P :: '\n' :: '\n' :: (W ++ [' ', '\n']))
          = P :: '\n' :: '\n' :: (W ++ [' ', '\n']) := by
        have h1 := subQ_fire_tail P W ' ' ['\n'] hP hWin (by decide)
        rw [show (W ++ [' ', '\n'] : List Char) = W ++ ' ' :: ['\n'] from rfl, h1,
          subQ_n]
        simp
      have htail2 : applySub mQuestion (P :: '\n' :: '\n' :: (W ++ ['\n', '\n']))
          = P :: '\n' :: '\n' :: (W ++ [' ', '\n']) := by
        have h1 := subQ_fire_tail P W '\n' ['\n'] hP hWin (by decide)
        rw [show (W ++ ['\n', '\n'] : List Char) = W ++ '\n' :: ['\n'] from rfl, h1,
          subQ_n]
        simp
      have hZ : applySub mQuestion Z = Z := by
        have hidem := subQ_idem (g ++ [d, '\n', '\n'])
        rw [hQ] at hidem
        rw [subQ_split Z (P :: '\n' :: '\n' :: (W ++ [' ', '\n']))
          (opaqueHead_punct hP _), htail1] at hidem
        exact List.append_cancel_right hidem
      rw [hQ, htn, hre2,
        subQ_split Z (P :: '\n' :: '\n' :: (W ++ ['\n', '\n'])) (opaqueHead_punct hP _),
        htail2, hZ]
  · cases a with
    | nil =>
      show applySub mQuestion (tailNorm (applySub mQuestion [])) = _
      rw [applySub_nil]
    | cons c cs =>
      push_neg at hnw
      have hcws : isPyWs c = true := by
        have := hnw c (by simp)
        cases h2 : isPyWs c
        · rw [h2] at this
          exact absurd rfl this
        · rfl
      have hall : ∀ x ∈ cs, isPyWs x = true := by
        intro x hx
        have := hnw x (by simp [hx])
        cases h2 : isPyWs x
        · rw [h2] at this
          exact absurd rfl this
        · rfl
      rw [tailNorm_allws c cs hall]
      have hq3 : applySub mQuestion [c, '\n', '\n'] = [c, '\n', '\n'] := by
        rw [show ([c, '\n', '\n'] : List Char) = c :: ['\n', '\n'] from rfl,
          applySub_cons_none (mQuestion_none_of_not_punct _ (ws_not_punct hcws)),
          subQ_nn]
      rw [hq3, tailNorm_allws c ['\n', '\n'] (by
        intro x hx
        simp only [List.mem_cons] at hx
        rcases hx with h1 | h1 | h1
        · rw [h1]; decide
        · rw [h1]; decide
        · cases h1), hq3]

/-- First-bullet decomposition of a list. -/
theorem bullet_split : ∀ (l : List Char),
    '•' ∉ l ∨ ∃ a b, l = a ++ '•' :: b ∧ '•' ∉ a := by
  intro l
  induction l with
  | nil => exact Or.inl (by simp)
  | cons c cs ih =>
    by_cases hc : c = '•'
    · subst hc
      exact Or.inr ⟨[], cs, rfl, by simp⟩
    · rcases ih with h | ⟨a, b, heq, hna⟩
      · refine Or.inl ?_
        intro hmem
        rcases List.mem_cons.mp hmem with h1 | h1
        · exact hc h1.symm
        · exact h h1
      · refine Or.inr ⟨c :: a, b, by rw [heq]; rfl, ?_⟩
        intro hmem
        rcases List.mem_cons.mp hmem with h1 | h1
        · exact hc h1.symm
        · exact hna h1

/-- One round of bullet-any plus question rewriting is a fixed point of the
composite of the two scans. -/
theorem cycleQY : ∀ (z : List Char),
    applySub mQuestion (applySub mBulletAny
      (applySub mQuestion (applySub mBulletAny z)))
      = applySub mQuestion (applySub mBulletAny z) := by
  have key : ∀ (n : Nat) (z : List Char), z.length ≤ n →
      applySub mQuestion (applySub mBulletAny
        (applySub mQuestion (applySub mBulletAny z)))
        = applySub mQuestion (applySub mBulletAny z) := by
    intro n
    induction n with
    | zero =>
      intro z hz
      have hze : z = [] := List.length_eq_zero.mp (Nat.le_zero.mp hz)
      subst hze
      rw [applySub_nil, applySub_nil, applySub_nil, applySub_nil]
    | succ n ih =>
      intro z hz
      rcases bullet_split z with hnb | ⟨a, b, heq, hna⟩
      · rw [subBA_id_of_no_bullet z hnb,
          subBA_id_of_no_bullet _ (subQ_no_bullet z hnb)]
        exact subQ_idem z
      · subst heq
        have hblen : b.length ≤ n := by
          have := List.length_append a ('•' :: b)
          simp only [List.length_cons] at this hz
          rw [this] at hz
          omega
        have hYz : applySub mBulletAny (a ++ '•' :: b)
            = tailNorm a ++ '•' :: applySub mBulletAny b := subBA_block a b hna
        have hQYz : applySub mQuestion (applySub mBulletAny (a ++ '•' :: b))
            = applySub mQuestion (tailNorm a)
              ++ '•' :: applySub mQuestion (applySub mBulletAny b) := by
          rw [hYz, subQ_split (tailNorm a) ('•' :: applySub mBulletAny b)
            (opaqueHead_bullet _), applySub_cons_none (mQuestion_bullet _)]
        have hA1nb : '•' ∉ applySub mQuestion (tailNorm a) :=
          subQ_no_bullet (tailNorm a) (tailNorm_no_bullet a hna)
        have hY2 : applySub mBulletAny (applySub mQuestion
              (applySub mBulletAny (a ++ '•' :: b)))
            = tailNorm (applySub mQuestion (tailNorm a))
              ++ '•' :: applySub mBulletAny
                  (applySub mQuestion (applySub mBulletAny b)) := by
          rw [hQYz]
          exact subBA_block _ _ hA1nb
        rw [hY2, subQ_split _ _ (opaqueHead_bullet _),
          applySub_cons_none (mQuestion_bullet _), blk a, ih b hblen, ← hQYz]

  intro z
  exact key z.length z le_rfl

/-! ### The digit/letter substitutions are inert on already-separated text -/

theorem getLast_digitRun (c : Char) (T : List Char) (hc : isPyDigit c = true)
    (hT : ∀ d ∈ T, isPyDigit d = true) :
    ∃ a, (c :: T).getLast? = some a ∧ isPyDigit a = true := by
  induction T generalizing c with
  | nil => exact ⟨c, rfl, hc⟩
  | cons t T ih =>
    obtain ⟨a, ha, hda⟩ := ih t (hT t (by simp)) (fun d hd => hT d (by simp [hd]))
    refine ⟨a, ?_, hda⟩
    rw [List.getLast?_cons_cons]
    exact ha

/-- `(\d+)([a-zA-Z])` never fires on text with no digit-then-letter pair. -/
theorem subDL_id_of_chain : ∀ l, l.Chain' DLok → applySub mDigitLetter l = l := by
  intro l
  induction l with
  | nil =>
    intro _
    exact applySub_nil
  | cons c cs ih =>
    intro h
    have hnone : mDigitLetter (c :: cs) = none := by
      cases hfire : mDigitLetter (c :: cs) with
      | none => rfl
      | some p =>
        obtain ⟨c2, cs2, x, r, hl, hc, hd, hx, _⟩ := mDigitLetter_some hfire
        injection hl with e1 e2
        subst e1
        subst e2
        have hsplit : List.Chain' DLok
            ((c :: cs.takeWhile isPyDigit) ++ cs.dropWhile isPyDigit) := by
          rw [List.cons_append, List.takeWhile_append_dropWhile]
          exact h
        obtain ⟨_, _, hjunc⟩ := List.chain'_append.mp hsplit
        obtain ⟨a, ha, hda⟩ := getLast_digitRun c (cs.takeWhile isPyDigit) hc
          (fun d hd => List.mem_takeWhile_imp hd)
        have hok := hjunc a (Option.mem_def.mpr ha) x
          (Option.mem_def.mpr (by rw [hd]; rfl))
        exact absurd ⟨hda, hx⟩ hok
    rw [applySub_cons_none hnone, ih h.tail]

/-- `([a-zA-Z])(\d+)` never fires on text with no letter-then-digit pair. -/
theorem subLD_id_of_chain : ∀ l, l.Chain' LDok → applySub mLetterDigit l = l := by
  intro l
  induction l with
  | nil =>
    intro _
    exact applySub_nil
  | cons c cs ih =>
    intro h
    have hnone : mLetterDigit (c :: cs) = none := by
      cases hfire : mLetterDigit (c :: cs) with
      | none => rfl
      | some p =>
        obtain ⟨c2, d, cs2, hl, hcl, hdd, _⟩ := mLetterDigit_some hfire
        injection hl with e1 e2
        subst e1
        subst e2
        exact absurd ⟨hcl, hdd⟩ (List.chain'_cons.mp h).1
    rw [applySub_cons_none hnone, ih h.tail]

/-! ### The bullet-punctuation substitution is inert on normalized blocks -/

/-- Effect of `([.!?])\s*(•)` on the text before a bullet. -/
def pNormP : List Char → List Char
  | [] => []
  | c :: cs =>
    match cs.dropWhile isPyWs with
    | [] => if isPunct c then [c, '\n', '\n'] else c :: cs
    | _ :: _ => c :: pNormP cs

theorem pNormP_cons (c : Char) (cs : List Char) :
    pNormP (c :: cs)
      = match cs.dropWhile isPyWs with
        | [] => if isPunct c then [c, '\n', '\n'] else c :: cs
        | _ :: _ => c :: pNormP cs := rfl

theorem subBP_ws_bullet : ∀ (u b : List Char), (∀ x ∈ u, isPyWs x = true) →
    applySub mBulletPunct (u ++ '•' :: b)
      = u ++ '•' :: applySub mBulletPunct b := by
  intro u
  induction u with
  | nil =>
    intro b _
    rw [List.nil_append,
      applySub_cons_none (mBulletPunct_none_of_not_punct _ (by decide))]
    rfl
  | cons x u ih =>
    intro b hu
    rw [List.cons_append,
      applySub_cons_none (mBulletPunct_none_of_not_punct _
        (ws_not_punct (hu x (by simp)))),
      ih b (fun y hy => hu y (by simp [hy]))]
    rfl

/-- The bullet-punctuation substitution on a block: the prefix before the
first bullet is rewritten to its `pNormP` and the scan continues after the
bullet. -/
theorem subBP_block : ∀ (A b : List Char), '•' ∉ A →
    applySub mBulletPunct (A ++ '•' :: b)
      = pNormP A ++ '•' :: applySub mBulletPunct b := by
  intro A
  induction A with
  | nil =>
    intro b _
    rw [List.nil_append,
      applySub_cons_none (mBulletPunct_none_of_not_punct _ (by decide))]
    rfl
  | cons c A ih =>
    intro b hnb
    have hAnb : '•' ∉ A := fun hb => hnb (by simp [hb])
    rw [List.cons_append, pNormP_cons]
    cases hdw : A.dropWhile isPyWs with
    | nil =>
      have hAws : ∀ y ∈ A, isPyWs y = true := List.dropWhile_eq_nil_iff.mp hdw
      have hd2 : (A ++ '•' :: b).dropWhile isPyWs = '•' :: b := by
        rw [dropWhile_append_all A ('•' :: b) hAws,
          List.dropWhile_cons_of_neg (by decide)]
      by_cases hc : isPunct c = true
      · have hfire : mBulletPunct (c :: (A ++ '•' :: b))
            = some ([c, '\n', '\n', '•'], b) := by
          have e0 : mBulletPunct (c :: (A ++ '•' :: b))
              = if isPunct c then
                  match (A ++ '•' :: b).dropWhile isPyWs with
                  | '•' :: r => some ([c, '\n', '\n', '•'], r)
                  | _ => none
                else none := rfl
          rw [e0, if_pos hc, hd2]
          rfl
        rw [applySub_cons_some good_mBulletPunct hfire, if_pos hc]
        rfl
      · have hnone : mBulletPunct (c :: (A ++ '•' :: b)) = none :=
          mBulletPunct_none_of_not_punct _ (by simpa using hc)
        rw [applySub_cons_none hnone, if_neg hc, subBP_ws_bullet A b hAws]
        rfl
    | cons d t =>
      have hd2 : (A ++ '•' :: b).dropWhile isPyWs = d :: (t ++ '•' :: b) := by
        rw [dropWhile_append_opq A ('•' :: b) (opaqueHead_bullet b), hdw]
        simp
      have hdnb : d ≠ '•' := fun he =>
        hAnb (he ▸ mem_of_mem_dropWhile (by rw [hdw]; simp))
      have hnone : mBulletPunct (c :: (A ++ '•' :: b)) = none := by
        by_cases hc : isPunct c = true
        · have e0 : mBulletPunct (c :: (A ++ '•' :: b))
              = if isPunct c then
                  match (A ++ '•' :: b).dropWhile isPyWs with
                  | '•' :: r => some ([c, '\n', '\n', '•'], r)
                  | _ => none
                else none := rfl
          rw [e0, if_pos hc, hd2]
          split
          · rename_i r heq
            injection heq with h1 _
            exact absurd h1 hdnb
          · rfl
        · exact mBulletPunct_none_of_not_punct _ (by simpa using hc)
      rw [applySub_cons_none hnone, ih b hAnb]
      rfl

theorem pNormP_id (X : List Char) (e : Char) (w : List Char)
    (he : isPyWs e = false) (hw : ∀ c ∈ w, isPyWs c = true)
    (hcond : isPunct e = false ∨ w = ['\n', '\n']) :
    pNormP (X ++ e :: w) = X ++ e :: w := by
  induction X with
  | nil =>
    rw [List.nil_append, pNormP_cons, List.dropWhile_eq_nil_iff.mpr hw]
    rcases hcond with h | h
    · rw [if_neg (by simp [h])]
    · subst h
      by_cases hp : isPunct e = true
      · rw [if_pos hp]
      · rw [if_neg hp]
  | cons x X ih =>
    rw [List.cons_append, pNormP_cons]
    cases hdw : (X ++ e :: w).dropWhile isPyWs with
    | nil =>
      have h2 := List.dropWhile_eq_nil_iff.mp hdw e (by simp)
      rw [he] at h2
      cases h2
    | cons a t =>
      rw [ih]

theorem pNormP_allws (u : List Char) (hu : ∀ x ∈ u, isPyWs x = true) :
    pNormP u = u := by
  cases u with
  | nil => rfl
  | cons c cs =>
    rw [pNormP_cons,
      List.dropWhile_eq_nil_iff.mpr (fun x hx => hu x (by simp [hx])),
      if_neg (by simp [ws_not_punct (hu c (by simp))])]

theorem allws_of_not_exists {l : List Char} (h : ¬∃ x ∈ l, isPyWs x = false) :
    ∀ x ∈ l, isPyWs x = true := by
  intro x hx
  cases h2 : isPyWs x
  · exact absurd ⟨x, hx, h2⟩ h
  · rfl

theorem ws_pair : ∀ x ∈ ([' ', '\n'] : List Char), isPyWs x = true := by decide

theorem ws_nn : ∀ x ∈ (['\n', '\n'] : List Char), isPyWs x = true := by decide

theorem subQ_tailNorm_allws (c : Char) (cs : List Char)
    (hc : isPyWs c = true) (hall : ∀ x ∈ cs, isPyWs x = true) :
    applySub mQuestion (tailNorm (c :: cs)) = [c, '\n', '\n'] := by
  rw [tailNorm_allws c cs hall,
    show ([c, '\n', '\n'] : List Char) = c :: ['\n', '\n'] from rfl,
    applySub_cons_none (mQuestion_none_of_not_punct _ (ws_not_punct hc)), subQ_nn]

/-- After one bullet-any plus question round, `([.!?])\s*(•)` rewrites the
text to itself: every remaining punctuation-bullet site is already in the
normal form that the rule emits. -/
theorem subBP_fix : ∀ (z : List Char),
    applySub mBulletPunct (applySub mQuestion (applySub mBulletAny z))
      = applySub mQuestion (applySub mBulletAny z) := by
  have key : ∀ (n : Nat) (z : List Char), z.length ≤ n →
      applySub mBulletPunct (applySub mQuestion (applySub mBulletAny z))
        = applySub mQuestion (applySub mBulletAny z) := by
    intro n
    induction n with
    | zero =>
      intro z hz
      have hze : z = [] := List.length_eq_zero.mp (Nat.le_zero.mp hz)
      subst hze
      rw [applySub_nil, applySub_nil, applySub_nil]
    | succ n ih =>
      intro z hz
      rcases bullet_split z with hnb | ⟨a, b, heq, hna⟩
      · rw [subBA_id_of_no_bullet z hnb]
        exact subBP_id_of_no_bullet _ (subQ_no_bullet z hnb)
      · subst heq
        have hblen : b.length ≤ n := by
          have hl := List.length_append a ('•' :: b)
          simp only [List.length_cons] at hl hz
          rw [hl] at hz
          omega
        have hQYz : applySub mQuestion (applySub mBulletAny (a ++ '•' :: b))
            = applySub mQuestion (tailNorm a)
              ++ '•' :: applySub mQuestion (applySub mBulletAny b) := by
          rw [subBA_block a b hna,
            subQ_split (tailNorm a) ('•' :: applySub mBulletAny b)
              (opaqueHead_bullet _), applySub_cons_none (mQuestion_bullet _)]
        have hA1nb : '•' ∉ applySub mQuestion (tailNorm a) :=
          subQ_no_bullet (tailNorm a) (tailNorm_no_bullet a hna)
        have hpn : pNormP (applySub mQuestion (tailNorm a))
            = applySub mQuestion (tailNorm a) := by
          by_cases hnw : ∃ x ∈ a, isPyWs x = false
          · obtain ⟨g, d, hd, hg⟩ := tailNorm_form a hnw
            rw [hg]
            rcases subQ_tail_dich g d hd with ⟨Z, e, he, hQ⟩ | ⟨Z, P, W, hP, hWin, hQ⟩
            · rw [hQ]
              exact pNormP_id Z e ['\n', '\n'] he ws_nn (Or.inr rfl)
            · rw [hQ]
              obtain ⟨W2, dW, hWdec⟩ : ∃ W2 dW, W = W2 ++ [dW] := by
                rcases List.eq_nil_or_concat W with h | ⟨W2, dW, h⟩
                · exact absurd h (qwords_ne_nil W hWin)
                · exact ⟨W2, dW, by rw [h, List.concat_eq_append]⟩
              have hdWl : isLetter dW = true :=
                qwords_letters W hWin dW (by rw [hWdec]; simp)
              have hre : Z ++ P :: '\n' :: '\n' :: (W ++ [' ', '\n'])
                  = (Z ++ (P :: '\n' :: '\n' :: W2)) ++ dW :: [' ', '\n'] := by
                rw [hWdec]
                simp
              rw [hre]
              exact pNormP_id _ dW [' ', '\n'] (letter_not_ws hdWl) ws_pair
                (Or.inl (letter_not_punct hdWl))
          · cases a with
            | nil =>
              show pNormP (applySub mQuestion (tailNorm ([] : List Char)))
                  = applySub mQuestion (tailNorm ([] : List Char))
              rw [show tailNorm ([] : List Char) = [] from rfl, applySub_nil]
              rfl
            | cons c cs =>
              have hall := allws_of_not_exists hnw
              rw [subQ_tailNorm_allws c cs (hall c (by simp))
                (fun x hx => hall x (by simp [hx]))]
              refine pNormP_allws _ ?_
              intro x hx
              simp only [List.mem_cons] at hx
              rcases hx with h1 | h1 | h1 | h1
              · rw [h1]
                exact hall c (by simp)
              · rw [h1]; decide
              · rw [h1]; decide
              · cases h1
        rw [hQYz, subBP_block _ _ hA1nb, hpn, ih b hblen]
  intro z
  exact key z.length z le_rfl

/-! ### Absence of dollar-whitespace-digit sites -/

/-- No suffix of the text is a match site of `\$\s+(\d)`. -/
def dsFree (l : List Char) : Prop :=
  ∀ cs, ('$' :: cs) <:+ l → mDollar ('$' :: cs) = none

theorem dsFree_nil : dsFree [] := by
  intro cs h
  obtain ⟨t, ht⟩ := h
  cases t <;> cases ht

theorem dsFree_suffix {l r : List Char} (h : dsFree l) (hr : r <:+ l) : dsFree r :=
  fun cs hcs => h cs (hcs.trans hr)

theorem suffix_cons_cases {s t : List Char} {c : Char} (h : s <:+ c :: t) :
    s = c :: t ∨ s <:+ t := by
  obtain ⟨u, hu⟩ := h
  cases u with
  | nil =>
    left
    simpa using hu
  | cons u0 u1 =>
    right
    injection hu with _ h2
    exact ⟨u1, h2⟩

theorem suffix_append_cases {s e o : List Char} (h : s <:+ e ++ o) :
    s <:+ o ∨ ∃ e2 c, (c :: e2) <:+ e ∧ s = c :: (e2 ++ o) := by
  rcases List.suffix_or_suffix_of_suffix h (List.suffix_append e o) with h1 | h1
  · exact Or.inl h1
  · obtain ⟨e2, he2⟩ := h1
    cases e2 with
    | nil =>
      refine Or.inl ?_
      rw [List.nil_append] at he2
      rw [← he2]
    | cons c e2 =>
      refine Or.inr ⟨e2, c, ?_, ?_⟩
      · obtain ⟨t, ht⟩ := h
        rw [← he2, ← List.append_assoc] at ht
        exact ⟨t, List.append_cancel_right ht⟩
      · rw [← he2]
        simp

theorem mDollar_cons_eq (cs : List Char) :
    mDollar ('$' :: cs)
      = match cs.dropWhile isPyWs with
        | d :: r =>
          if isPyDigit d && !(cs.takeWhile isPyWs).isEmpty then some (['$', d], r)
          else none
        | [] => none := rfl

/-- A failed dollar site stays failed after a head-preserving, whitespace-run
preserving rewrite of the remainder. -/
theorem dollar_head_none {m : Matcher}
    (hwsfail : ∀ c cs, isPyWs c = true → m (c :: cs) = none)
    (hhead : ∀ l, (applySub m l).head? = l.head?)
    {cs : List Char} (h : mDollar ('$' :: cs) = none) :
    mDollar ('$' :: applySub m cs) = none := by
  obtain ⟨hh, ht⟩ := span_preserved hwsfail hhead cs
  rw [mDollar_cons_eq] at h ⊢
  cases hv : cs.dropWhile isPyWs with
  | nil =>
    rw [hv] at hh
    have hnil : (applySub m cs).dropWhile isPyWs = [] := by
      cases hvv : (applySub m cs).dropWhile isPyWs with
      | nil => rfl
      | cons a t =>
        rw [hvv] at hh
        cases hh
    rw [hnil]
  | cons d r =>
    rw [hv] at hh h
    cases hvv : (applySub m cs).dropWhile isPyWs with
    | nil => rfl
    | cons d2 r2 =>
      rw [hvv] at hh
      have hd2 : d = d2 := (by simpa using hh : d2 = d).symm
      subst hd2
      have h2 : (if isPyDigit d && !(cs.takeWhile isPyWs).isEmpty
          then some ((['$', d] : List Char), r) else none) = none := h
      show (if isPyDigit d && !((applySub m cs).takeWhile isPyWs).isEmpty
          then some ((['$', d] : List Char), r2) else none) = none
      rw [ht]
      by_cases hcond : (isPyDigit d && !(cs.takeWhile isPyWs).isEmpty) = true
      · rw [if_pos hcond] at h2
        cases h2
      · rw [if_neg hcond]

/-- The bullet-any variant: its matches can start inside a whitespace run, but
they keep the first non-whitespace character, and an empty leading run is also
kept. -/
theorem dollar_head_none_BA {cs : List Char} (h : mDollar ('$' :: cs) = none) :
    mDollar ('$' :: applySub mBulletAny cs) = none := by
  have hh := span_head_subBA cs
  rw [mDollar_cons_eq] at h ⊢
  cases hv : cs.dropWhile isPyWs with
  | nil =>
    rw [hv] at hh
    have hnil : (applySub mBulletAny cs).dropWhile isPyWs = [] := by
      cases hvv : (applySub mBulletAny cs).dropWhile isPyWs with
      | nil => rfl
      | cons a t =>
        rw [hvv] at hh
        cases hh
    rw [hnil]
  | cons d r =>
    rw [hv] at hh h
    have h2 : (if isPyDigit d && !(cs.takeWhile isPyWs).isEmpty
        then some ((['$', d] : List Char), r) else none) = none := h
    cases hvv : (applySub mBulletAny cs).dropWhile isPyWs with
    | nil => rfl
    | cons d2 r2 =>
      rw [hvv] at hh
      have hd2 : d = d2 := (by simpa using hh : d2 = d).symm
      subst hd2
      show (if isPyDigit d && !((applySub mBulletAny cs).takeWhile isPyWs).isEmpty
          then some ((['$', d] : List Char), r2) else none) = none
      by_cases hdig : isPyDigit d = true
      · have hrun : (cs.takeWhile isPyWs).isEmpty = true := by
          by_cases hre : (cs.takeWhile isPyWs).isEmpty = true
          · exact hre
          · rw [if_pos (by rw [hdig]; simp [hre])] at h2
            cases h2
        have hcs0 : ∃ h0 t0, cs = h0 :: t0 ∧ isPyWs h0 = false := by
          cases hcs : cs with
          | nil =>
            rw [hcs] at hv
            cases hv
          | cons h0 t0 =>
            refine ⟨h0, t0, rfl, ?_⟩
            cases hw0 : isPyWs h0 with
            | false => rfl
            | true =>
              rw [hcs] at hrun
              rw [List.takeWhile_cons_of_pos hw0] at hrun
              cases hrun
        obtain ⟨h0, t0, hcs0e, hw0⟩ := hcs0
        have hhead0 : (applySub mBulletAny cs).head? = some h0 := by
          rw [subBA_head, hcs0e]
          rfl
        obtain ⟨t2, ht2⟩ := cons_of_head? hhead0
        rw [ht2, List.takeWhile_cons_of_neg (by simp [hw0])]
        rw [if_neg (by simp)]
      · rw [if_neg (by simp [hdig])]

/-- Generic preservation of dollar-site freeness by a scanner pass. -/
theorem dsFree_preserve {m : Matcher} (hm : GoodMatcher m)
    (hsuffix : ∀ l p, m l = some p → p.2 <:+ l)
    (hemit : ∀ l p e2, m l = some p → ('$' :: e2) <:+ p.1 →
      mDollar ('$' :: (e2 ++ applySub m p.2)) = none)
    (hnonehead : ∀ c cs, m (c :: cs) = none → mDollar ('$' :: cs) = none →
      mDollar ('$' :: applySub m cs) = none) :
    ∀ l, dsFree l → dsFree (applySub m l) := by
  refine scanner_induction m hm _ ?_ ?_ ?_
  · intro _
    rw [applySub_nil]
    exact dsFree_nil
  · intro c cs p hmc ih hfree
    rw [applySub_cons_some hm hmc]
    intro cs2 hsuf
    rcases suffix_append_cases hsuf with h1 | ⟨e2, c2, he2, heq⟩
    · exact ih (dsFree_suffix hfree (hsuffix _ _ hmc)) cs2 h1
    · injection heq with hc2 hcs2
      rw [hcs2]
      rw [← hc2] at he2
      exact hemit _ _ e2 hmc he2
  · intro c cs hmc ih hfree
    rw [applySub_cons_none hmc]
    intro cs2 hsuf
    rcases suffix_cons_cases hsuf with h1 | h1
    · injection h1 with hc hcs2
      rw [hcs2]
      rw [← hc] at hmc
      exact hnonehead '$' cs hmc (hfree cs (hc ▸ List.suffix_rfl))
    · exact ih (dsFree_suffix hfree (List.suffix_cons c cs)) cs2 h1

theorem mDollar_bullet_tail (u out : List Char) (hu : ∀ x ∈ u, isPyWs x = true) :
    mDollar ('$' :: (u ++ '•' :: out)) = none := by
  rw [mDollar_cons_eq, dropWhile_append_all u _ hu,
    List.dropWhile_cons_of_neg (by decide)]
  show (if isPyDigit '•' && !((u ++ '•' :: out).takeWhile isPyWs).isEmpty
      then some ((['$', '•'] : List Char), out) else none) = none
  rw [if_neg (by simp [show isPyDigit '•' = false from rfl])]

theorem dsFree_subDL : ∀ l, dsFree l → dsFree (applySub mDigitLetter l) := by
  refine dsFree_preserve good_mDigitLetter ?_ ?_ ?_
  · intro l p hp
    obtain ⟨c, cs, x, r, hl, _, hd, _, hpe⟩ := mDigitLetter_some hp
    subst hl
    rw [hpe]
    exact (suffix_from_dropWhile hd).trans (List.suffix_cons c cs)
  · intro l p e2 hp hsuf
    obtain ⟨c, cs, x, r, hl, hc, hd, hx, hpe⟩ := mDigitLetter_some hp
    subst hl
    rw [hpe] at hsuf
    exfalso
    have hmem : '$' ∈ (c :: cs.takeWhile isPyDigit ++ [' ', x] : List Char) :=
      hsuf.subset (by simp)
    have hall : ∀ y ∈ (c :: cs.takeWhile isPyDigit ++ [' ', x] : List Char),
        y ≠ '$' := by
      intro y hy
      rcases List.mem_append.mp hy with h | h
      · rcases List.mem_cons.mp h with h2 | h2
        · subst h2
          exact digit_ne_dollar hc
        · exact digit_ne_dollar (List.mem_takeWhile_imp h2)
      · rcases List.mem_cons.mp h with h2 | h2
        · subst h2
          decide
        · rcases List.mem_cons.mp h2 with h3 | h3
          · subst h3
            exact letter_ne_dollar hx
          · cases h3
    exact hall '$' hmem rfl
  · intro c cs _ h
    exact dollar_head_none
      (fun w ws hw => mDigitLetter_none_of_not_digit ws (ws_not_digit hw))
      subDL_head h

theorem dsFree_subLD : ∀ l, dsFree l → dsFree (applySub mLetterDigit l) := by
  refine dsFree_preserve good_mLetterDigit ?_ ?_ ?_
  · intro l p hp
    obtain ⟨c, d, cs, hl, _, _, hpe⟩ := mLetterDigit_some hp
    subst hl
    rw [hpe]
    exact ((dropWhile_suffix isPyDigit cs).trans (List.suffix_cons d cs)).trans
      (List.suffix_cons c (d :: cs))
  · intro l p e2 hp hsuf
    obtain ⟨c, d, cs, hl, hc, hd, hpe⟩ := mLetterDigit_some hp
    subst hl
    rw [hpe] at hsuf
    exfalso
    have hmem : '$' ∈ (([c, ' ', d] ++ cs.takeWhile isPyDigit : List Char)) :=
      hsuf.subset (by simp)
    have hall : ∀ y ∈ (([c, ' ', d] ++ cs.takeWhile isPyDigit : List Char)),
        y ≠ '$' := by
      intro y hy
      rcases List.mem_append.mp hy with h | h
      · rcases List.mem_cons.mp h with h2 | h2
        · subst h2
          exact letter_ne_dollar hc
        · rcases List.mem_cons.mp h2 with h3 | h3
          · subst h3
            decide
          · rcases List.mem_cons.mp h3 with h4 | h4
            · subst h4
              exact digit_ne_dollar hd
            · cases h4
      · exact digit_ne_dollar (List.mem_takeWhile_imp h)
    exact hall '$' hmem rfl
  · intro c cs _ h
    exact dollar_head_none
      (fun w ws hw => mLetterDigit_none_of_not_letter ws (ws_not_letter hw))
      subLD_head h

theorem dsFree_subBP : ∀ l, dsFree l → dsFree (applySub mBulletPunct l) := by
  refine dsFree_preserve good_mBulletPunct ?_ ?_ ?_
  · intro l p hp
    obtain ⟨c, cs, r, hl, _, hd, hpe⟩ := mBulletPunct_some hp
    subst hl
    rw [hpe]
    exact (suffix_from_dropWhile hd).trans (List.suffix_cons c cs)
  · intro l p e2 hp hsuf
    obtain ⟨c, cs, r, hl, hc, hd, hpe⟩ := mBulletPunct_some hp
    subst hl
    rw [hpe] at hsuf
    exfalso
    have hmem : '$' ∈ ([c, '\n', '\n', '•'] : List Char) := hsuf.subset (by simp)
    have hall : ∀ y ∈ ([c, '\n', '\n', '•'] : List Char), y ≠ '$' := by
      intro y hy
      rcases List.mem_cons.mp hy with h2 | h2
      · subst h2
        exact punct_ne_dollar hc
      · rcases List.mem_cons.mp h2 with h3 | h3
        · subst h3
          decide
        · rcases List.mem_cons.mp h3 with h4 | h4
          · subst h4
            decide
          · rcases List.mem_cons.mp h4 with h5 | h5
            · subst h5
              decide
            · cases h5
    exact hall '$' hmem rfl
  · intro c cs _ h
    exact dollar_head_none
      (fun w ws hw => mBulletPunct_none_of_not_punct ws (ws_not_punct hw))
      subBP_head h

theorem dsFree_subQ : ∀ l, dsFree l → dsFree (applySub mQuestion l) := by
  refine dsFree_preserve good_mQuestion ?_ ?_ ?_
  · intro l p hp
    obtain ⟨c, cs, w, r, hl, _, htw, hpe⟩ := mQuestion_some hp
    subst hl
    rw [hpe]
    obtain ⟨_, _, s, hdrop, _⟩ := tryWords_some htw
    exact ((suffix_from_drop hdrop).trans
      (dropWhile_suffix isPyWs cs)).trans (List.suffix_cons c cs)
  · intro l p e2 hp hsuf
    obtain ⟨c, cs, w, r, hl, hc, htw, hpe⟩ := mQuestion_some hp
    subst hl
    rw [hpe] at hsuf
    obtain ⟨hwin, _, _, _, _⟩ := tryWords_some htw
    exfalso
    have hmem : '$' ∈ (c :: '\n' :: '\n' :: (w ++ [' ']) : List Char) :=
      hsuf.subset (by simp)
    have hall : ∀ y ∈ (c :: '\n' :: '\n' :: (w ++ [' ']) : List Char), y ≠ '$' := by
      intro y hy
      rcases List.mem_cons.mp hy with h2 | h2
      · subst h2
        exact punct_ne_dollar hc
      · rcases List.mem_cons.mp h2 with h3 | h3
        · subst h3
          decide
        · rcases List.mem_cons.mp h3 with h4 | h4
          · subst h4
            decide
          · rcases List.mem_append.mp h4 with h5 | h5
            · exact letter_ne_dollar (qwords_letters w hwin y h5)
            · rcases List.mem_cons.mp h5 with h6 | h6
              · subst h6
                decide
              · cases h6
    exact hall '$' hmem rfl
  · intro c cs _ h
    exact dollar_head_none
      (fun w ws hw => mQuestion_none_of_not_punct ws (ws_not_punct hw))
      subQ_head h

theorem dsFree_subBA : ∀ l, dsFree l → dsFree (applySub mBulletAny l) := by
  refine dsFree_preserve good_mBulletAny ?_ ?_ ?_
  · intro l p hp
    obtain ⟨c, cs, r, hl, _, hd, hpe⟩ := mBulletAny_some hp
    subst hl
    rw [hpe]
    exact (suffix_from_dropWhile hd).trans (List.suffix_cons c cs)
  · intro l p e2 hp hsuf
    obtain ⟨c, cs, r, hl, hc, hd, hpe⟩ := mBulletAny_some hp
    subst hl
    rw [hpe] at hsuf
    rcases suffix_cons_cases hsuf with h1 | h1
    · injection h1 with _ he2
      rw [he2, hpe]
      show mDollar ('$' :: (['\n', '\n'] ++ '•' :: applySub mBulletAny r)) = none
      exact mDollar_bullet_tail ['\n', '\n'] _ ws_nn
    · rcases suffix_cons_cases h1 with h2 | h2
      · injection h2 with hc2 _
        exact absurd hc2 (by decide)
      rcases suffix_cons_cases h2 with h3 | h3
      · injection h3 with hc3 _
        exact absurd hc3 (by decide)
      rcases suffix_cons_cases h3 with h4 | h4
      · injection h4 with hc4 _
        exact absurd hc4 (by decide)
      · have hle := h4.length_le
        simp at hle
  · intro c cs _ h
    exact dollar_head_none_BA h

/-- The first substitution leaves no dollar-whitespace-digit site behind. -/
theorem dsFree_subDollar : ∀ l, dsFree (applySub mDollar l) := by
  refine scanner_induction mDollar good_mDollar _ ?_ ?_ ?_
  · rw [applySub_nil]
    exact dsFree_nil
  · intro c cs p hmc ih
    obtain ⟨cs2, d, r, hl, hd, hdig, hne, hpe⟩ := mDollar_some hmc
    injection hl with e1 e2
    subst e1
    subst e2
    subst hpe
    rw [applySub_cons_some good_mDollar hmc]
    intro e2cs hsuf
    rcases suffix_append_cases hsuf with h1 | ⟨e2, c2, he2, heq⟩
    · exact ih e2cs h1
    · injection heq with hc2 hcs2
      rw [hcs2]
      rw [← hc2] at he2
      rcases suffix_cons_cases he2 with h2 | h2
      · injection h2 with _ he2e
        rw [he2e]
        have hdnw : isPyWs d = false := by
          cases hw : isPyWs d
          · rfl
          · rw [ws_not_digit hw] at hdig
            cases hdig
        show mDollar ('$' :: (d :: applySub mDollar r)) = none
        rw [mDollar_cons_eq, List.dropWhile_cons_of_neg (by simp [hdnw])]
        show (if isPyDigit d && !((d :: applySub mDollar r).takeWhile isPyWs).isEmpty
            then some ((['$', d] : List Char), applySub mDollar r) else none) = none
        rw [List.takeWhile_cons_of_neg (by simp [hdnw]), if_neg (by simp)]
      rcases suffix_cons_cases h2 with h3 | h3
      · injection h3 with hcd _
        rw [← hcd] at hdig
        exact absurd hdig (by decide)
      · have hle := h3.length_le
        simp at hle
  · intro c cs hmc ih
    rw [applySub_cons_none hmc]
    intro e2cs hsuf
    rcases suffix_cons_cases hsuf with h1 | h1
    · injection h1 with hc hcs2
      rw [hcs2]
      rw [← hc] at hmc
      exact dollar_head_none
        (fun w ws hw => mDollar_none_of_ne ws (ws_ne_dollar hw)) subDollar_head hmc
    · exact ih e2cs h1

/-- `\$\s+(\d)` never fires on dollar-site-free text. -/
theorem subDollar_id_of_dsFree : ∀ l, dsFree l → applySub mDollar l = l := by
  intro l
  induction l with
  | nil =>
    intro _
    exact applySub_nil
  | cons c cs ih =>
    intro h
    have hnone : mDollar (c :: cs) = none := by
      by_cases hc : c = '$'
      · subst hc
        exact h cs List.suffix_rfl
      · exact mDollar_none_of_ne cs hc
    rw [applySub_cons_none hnone, ih (dsFree_suffix h (List.suffix_cons c cs))]

/-! ### Establishment and preservation of digit/letter separation -/

theorem chain'_DL_digitsBlock (c x : Char) (T : List Char)
    (hT : ∀ d ∈ T, isPyDigit d = true) :
    List.Chain' DLok (c :: T ++ [' ', x]) := by
  induction T generalizing c with
  | nil =>
    refine List.chain'_cons.mpr ⟨DLok_of_not_letter (by decide), ?_⟩
    exact List.chain'_cons.mpr ⟨DLok_of_not_digit (by decide), List.chain'_singleton _⟩
  | cons t T ih =>
    refine List.chain'_cons.mpr ⟨?_, ?_⟩
    · exact DLok_of_not_letter (digit_not_letter (hT t (by simp)))
    · exact ih t fun d hd => hT d (by simp [hd])

/-- The second substitution leaves no digit run adjacent to a following letter. -/
theorem subDL_noDL : ∀ l, (applySub mDigitLetter l).Chain' DLok := by
  refine scanner_induction mDigitLetter good_mDigitLetter _ ?_ ?_ ?_
  · rw [applySub_nil]; simp
  · intro c cs p hmc ih
    obtain ⟨c', cs', x, r, hl, hc, hd, hx, hp⟩ := mDigitLetter_some hmc
    injection hl with e1 e2
    subst e1
    subst e2
    subst hp
    rw [applySub_cons_some good_mDigitLetter hmc]
    rw [List.chain'_append]
    refine ⟨?_, ih, ?_⟩
    · exact chain'_DL_digitsBlock c x _ fun d hd => List.mem_takeWhile_imp hd
    · intro a ha y hy
      have hxa : a = x := by
        rw [show (c :: List.takeWhile isPyDigit cs ++ [' ', x] : List Char)
            = (c :: List.takeWhile isPyDigit cs ++ [' ']) ++ [x] by simp] at ha
        rw [List.getLast?_concat] at ha
        exact (by simpa using ha : x = a).symm
      subst hxa
      exact DLok_of_not_digit (letter_not_digit hx)
  · intro c cs hmc ih
    rw [applySub_cons_none hmc, List.chain'_cons']
    refine ⟨?_, ih⟩
    intro y hy
    rw [subDL_head cs] at hy
    cases cs with
    | nil => cases hy
    | cons y0 cs' =>
      simp only [List.head?_cons, Option.mem_def, Option.some.injEq] at hy
      subst hy
      intro hcontra
      obtain ⟨hcd, hyl⟩ := hcontra
      have hnd : isPyDigit y0 = false := letter_not_digit hyl
      have hclash : mDigitLetter (c :: y0 :: cs') = none := hmc
      simp only [mDigitLetter] at hclash
      rw [List.dropWhile_cons_of_neg (by simp [hnd])] at hclash
      simp [hcd, hyl] at hclash

/-- The third substitution leaves no letter adjacent to a following digit run. -/
theorem subLD_noLD : ∀ l, (applySub mLetterDigit l).Chain' LDok := by
  refine scanner_induction mLetterDigit good_mLetterDigit _ ?_ ?_ ?_
  · rw [applySub_nil]; simp
  · intro c cs p hmc ih
    obtain ⟨c', d, cs', hl, hcl, hdd, hp⟩ := mLetterDigit_some hmc
    injection hl with e1 e2
    subst e1
    subst e2
    subst hp
    rw [applySub_cons_some good_mLetterDigit hmc]
    rw [List.chain'_append]
    refine ⟨?_, ih, ?_⟩
    · refine List.chain'_cons.mpr ⟨LDok_of_not_digit (by decide), ?_⟩
      refine List.chain'_cons.mpr ⟨LDok_of_not_letter (by decide), ?_⟩
      apply chain'_all_pairs
      intro a ha b hb
      have hbd : isPyDigit b = true := by
        rcases List.mem_cons.mp hb with hb1 | hb2
        · rw [hb1]; exact hdd
        · exact List.mem_takeWhile_imp hb2
      exact LDok_of_not_letter (digit_not_letter (by
        rcases List.mem_cons.mp ha with ha1 | ha2
        · rw [ha1]; exact hdd
        · exact List.mem_takeWhile_imp ha2))
    · intro a ha y hy
      rw [subLD_head] at hy
      cases hr : cs'.dropWhile isPyDigit with
      | nil => rw [hr] at hy; cases hy
      | cons y0 r' =>
        rw [hr] at hy
        simp only [List.head?_cons, Option.mem_def, Option.some.injEq] at hy
        subst hy
        exact LDok_of_not_digit (dropWhile_head_false hr)
  · intro c cs hmc ih
    rw [applySub_cons_none hmc, List.chain'_cons']
    refine ⟨?_, ih⟩
    intro y hy
    rw [subLD_head cs] at hy
    cases cs with
    | nil => cases hy
    | cons y0 cs' =>
      simp only [List.head?_cons, Option.mem_def, Option.some.injEq] at hy
      subst hy
      intro hcontra
      obtain ⟨hcl, hyd⟩ := hcontra
      have hclash : mLetterDigit (c :: y0 :: cs') = none := hmc
      simp [mLetterDigit, hcl, hyd] at hclash

/-- The third substitution preserves the absence of digit-then-letter pairs. -/
theorem subLD_noDL : ∀ l, l.Chain' DLok → (applySub mLetterDigit l).Chain' DLok := by
  refine scanner_induction mLetterDigit good_mLetterDigit _ ?_ ?_ ?_
  · intro _; rw [applySub_nil]; simp
  · intro c cs p hmc ih h
    obtain ⟨c', d, cs', hl, hcl, hdd, hp⟩ := mLetterDigit_some hmc
    injection hl with e1 e2
    subst e1
    subst e2
    subst hp
    rw [applySub_cons_some good_mLetterDigit hmc]
    have h2 : List.Chain' DLok (d :: cs') := (List.chain'_cons.mp h).2
    have h3 : List.Chain' DLok
        ((d :: cs'.takeWhile isPyDigit) ++ cs'.dropWhile isPyDigit) := by
      rw [List.cons_append, List.takeWhile_append_dropWhile]
      exact h2
    obtain ⟨hdT, hr, hjunc⟩ := List.chain'_append.mp h3
    rw [List.chain'_append]
    refine ⟨?_, ih hr, ?_⟩
    · refine List.chain'_cons.mpr ⟨DLok_of_not_letter (by decide), ?_⟩
      exact List.chain'_cons.mpr ⟨DLok_of_not_digit (by decide), hdT⟩
    · intro a ha y hy
      rw [subLD_head] at hy
      refine hjunc a ?_ y hy
      rw [show ([c, ' ', d] ++ List.takeWhile isPyDigit cs' : List Char)
          = [c, ' '] ++ (d :: List.takeWhile isPyDigit cs') by simp] at ha
      rw [List.getLast?_append] at ha
      cases hg : (d :: List.takeWhile isPyDigit cs').getLast? with
      | none =>
        exact absurd hg (by simp)
      | some z =>
        rw [hg] at ha
        simpa using ha
  · intro c cs hmc ih h
    rw [applySub_cons_none hmc, List.chain'_cons']
    obtain ⟨hhead, htail⟩ := List.chain'_cons'.mp h
    refine ⟨?_, ih htail⟩
    intro y hy
    rw [subLD_head cs] at hy
    exact hhead y hy

/-- Generic preservation through the two bullet substitutions: every match
emits `c\n\n•`, whose internal pairs and junctions are harmless for any
relation satisfied by newline-second, newline-first and bullet-first pairs. -/
theorem bullet_preserve {m : Matcher} (hm : GoodMatcher m)
    (hinv : ∀ l p, m l = some p → ∃ c cs r, l = c :: cs ∧
        cs.dropWhile isPyWs = '•' :: r ∧ p = ([c, '\n', '\n', '•'], r))
    {R : Char → Char → Prop}
    (hna : ∀ a, R a '\n') (hnb : ∀ b, R '\n' b) (hba : ∀ b, R '•' b) :
    ∀ l, l.Chain' R → (applySub m l).Chain' R := by
  have hhead := applySub_head hm fun l p hp => by
    obtain ⟨c', cs', r, hl, _, hp2⟩ := hinv _ _ hp
    subst hl
    rw [hp2]
    rfl
  refine scanner_induction m hm _ ?_ ?_ ?_
  · intro _; rw [applySub_nil]; simp
  · intro c cs p hmc ih h
    obtain ⟨c', cs', r, hl, hd, hp⟩ := hinv _ _ hmc
    injection hl with e1 e2
    subst e1
    subst e2
    subst hp
    rw [applySub_cons_some hm hmc]
    rw [List.chain'_append]
    refine ⟨?_, ih ?_, ?_⟩
    · refine List.chain'_cons.mpr ⟨hna c, ?_⟩
      refine List.chain'_cons.mpr ⟨hna _, ?_⟩
      exact List.chain'_cons.mpr ⟨hnb _, List.chain'_singleton _⟩
    · exact h.suffix ((suffix_from_dropWhile hd).trans (List.suffix_cons c cs))
    · intro a ha y hy
      have : a = '•' := by simpa using ha.symm
      subst this
      exact hba y
  · intro c cs hmc ih h
    rw [applySub_cons_none hmc, List.chain'_cons']
    obtain ⟨hh, ht⟩ := List.chain'_cons'.mp h
    refine ⟨?_, ih ht⟩
    intro y hy
    rw [hhead cs] at hy
    exact hh y hy

/-- Generic preservation through the question-word substitution. -/
theorem subQ_preserve {R : Char → Char → Prop}
    (hna : ∀ a, R a '\n') (hnb : ∀ b, R '\n' b)
    (hsa : ∀ a, R a ' ') (hsb : ∀ b, R ' ' b)
    (hll : ∀ a b, isLetter a = true → isLetter b = true → R a b) :
    ∀ l, l.Chain' R → (applySub mQuestion l).Chain' R := by
  refine scanner_induction mQuestion good_mQuestion _ ?_ ?_ ?_
  · intro _; rw [applySub_nil]; simp
  · intro c cs p hmc ih h
    obtain ⟨c', cs', w, r, hl, hc, htw, hp⟩ := mQuestion_some hmc
    injection hl with e1 e2
    subst e1
    subst e2
    subst hp
    obtain ⟨hwin, hwpre, s, hdrop, hs⟩ := tryWords_some htw
    have hwl : ∀ x ∈ w, isLetter x = true := qwords_letters w hwin
    rw [applySub_cons_some good_mQuestion hmc]
    rw [List.chain'_append]
    refine ⟨?_, ih ?_, ?_⟩
    · refine List.chain'_cons.mpr ⟨hna c, ?_⟩
      refine List.chain'_cons.mpr ⟨hna _, ?_⟩
      rw [List.chain'_cons']
      refine ⟨fun y _ => hnb y, ?_⟩
      rw [List.chain'_append]
      refine ⟨chain'_all_pairs w (fun a ha b hb => hll a b (hwl a ha) (hwl b hb)),
        List.chain'_singleton _, ?_⟩
      intro a _ y hy
      have : y = ' ' := by simpa using hy.symm
      subst this
      exact hsa a
    · exact h.suffix ((suffix_from_drop hdrop).trans
        ((dropWhile_suffix isPyWs cs).trans (List.suffix_cons c cs)))
    · intro a ha y hy
      have : a = ' ' := by
        rw [show (c :: '\n' :: '\n' :: (w ++ [' ']) : List Char)
            = (c :: '\n' :: '\n' :: w) ++ [' '] by simp] at ha
        rw [List.getLast?_concat] at ha
        exact (by simpa using ha : ' ' = a).symm
      subst this
      exact hsb y
  · intro c cs hmc ih h
    rw [applySub_cons_none hmc, List.chain'_cons']
    obtain ⟨hh, ht⟩ := List.chain'_cons'.mp h
    refine ⟨?_, ih ht⟩
    intro y hy
    rw [subQ_head cs] at hy
    exact hh y hy

theorem mBulletPunct_inv : ∀ (l : List Char) (p : List Char × List Char),
    mBulletPunct l = some p → ∃ c cs r, l = c :: cs ∧
      cs.dropWhile isPyWs = '•' :: r ∧ p = ([c, '\n', '\n', '•'], r) := by
  intro l p h
  obtain ⟨c, cs, r, hl, _, hd, hp⟩ := mBulletPunct_some h
  exact ⟨c, cs, r, hl, hd, hp⟩

theorem mBulletAny_inv : ∀ (l : List Char) (p : List Char × List Char),
    mBulletAny l = some p → ∃ c cs r, l = c :: cs ∧
      cs.dropWhile isPyWs = '•' :: r ∧ p = ([c, '\n', '\n', '•'], r) := by
  intro l p h
  obtain ⟨c, cs, r, hl, _, hd, hp⟩ := mBulletAny_some h
  exact ⟨c, cs, r, hl, hd, hp⟩

/-- The six regex substitutions of `_fix_text_formatting`, in program order. -/
def fixTextList (l : List Char) : List Char :=
  subQ (subBA (subBP (subLD (subDL (subDollar l)))))

/-- `ConversationManager._fix_text_formatting`. -/
def fix_text_formatting (text : String) : String :=
  (fixTextList text.toList).asString

/-- The pipeline output has no digit-then-letter adjacency. -/
theorem fixTextList_chainDL (l : List Char) : (fixTextList l).Chain' DLok := by
  unfold fixTextList
  apply subQ_preserve (fun a => DLok_of_not_letter (by decide))
    (fun b => DLok_of_not_digit (by decide))
    (fun a => DLok_of_not_letter (by decide))
    (fun b => DLok_of_not_digit (by decide))
    (fun a b ha _ => DLok_of_not_digit (letter_not_digit ha))
  apply bullet_preserve good_mBulletAny mBulletAny_inv
    (fun a => DLok_of_not_letter (by decide))
    (fun b => DLok_of_not_digit (by decide))
    (fun b => DLok_of_not_digit (by decide))
  apply bullet_preserve good_mBulletPunct mBulletPunct_inv
    (fun a => DLok_of_not_letter (by decide))
    (fun b => DLok_of_not_digit (by decide))
    (fun b => DLok_of_not_digit (by decide))
  apply subLD_noDL
  apply subDL_noDL

/-- The pipeline output has no letter-then-digit adjacency. -/
theorem fixTextList_chainLD (l : List Char) : (fixTextList l).Chain' LDok := by
  unfold fixTextList
  apply subQ_preserve (fun a => LDok_of_not_digit (by decide))
    (fun b => LDok_of_not_letter (by decide))
    (fun a => LDok_of_not_digit (by decide))
    (fun b => LDok_of_not_letter (by decide))
    (fun a b _ hb => LDok_of_not_digit (letter_not_digit hb))
  apply bullet_preserve good_mBulletAny mBulletAny_inv
    (fun a => LDok_of_not_digit (by decide))
    (fun b => LDok_of_not_letter (by decide))
    (fun b => LDok_of_not_letter (by decide))
  apply bullet_preserve good_mBulletPunct mBulletPunct_inv
    (fun a => LDok_of_not_digit (by decide))
    (fun b => LDok_of_not_letter (by decide))
    (fun b => LDok_of_not_letter (by decide))
  apply subLD_noLD

/-- The pipeline output has no dollar-whitespace-digit site. -/
theorem fixTextList_dsFree (l : List Char) : dsFree (fixTextList l) :=
  dsFree_subQ _ (dsFree_subBA _ (dsFree_subBP _ (dsFree_subLD _
    (dsFree_subDL _ (dsFree_subDollar l)))))

/-- The six-step formatting pipeline is idempotent at the character-list level:
each of the first four rules is inert on pipeline output, and the bullet-any
plus question pair has stabilized after one round. -/
theorem fixTextList_idem (l : List Char) :
    fixTextList (fixTextList l) = fixTextList l := by
  have hD : applySub mDollar (fixTextList l) = fixTextList l :=
    subDollar_id_of_dsFree _ (fixTextList_dsFree l)
  have hA : applySub mDigitLetter (fixTextList l) = fixTextList l :=
    subDL_id_of_chain _ (fixTextList_chainDL l)
  have hB : applySub mLetterDigit (fixTextList l) = fixTextList l :=
    subLD_id_of_chain _ (fixTextList_chainLD l)
  have hP : applySub mBulletPunct (fixTextList l) = fixTextList l := by
    show applySub mBulletPunct (applySub mQuestion (applySub mBulletAny
      (subBP (subLD (subDL (subDollar l))))))
      = applySub mQuestion (applySub mBulletAny
        (subBP (subLD (subDL (subDollar l)))))
    exact subBP_fix _
  show applySub mQuestion (applySub mBulletAny (applySub mBulletPunct
    (applySub mLetterDigit (applySub mDigitLetter (applySub mDollar
      (fixTextList l)))))) = fixTextList l
  rw [hD, hA, hB, hP]
  show applySub mQuestion (applySub mBulletAny (applySub mQuestion
    (applySub mBulletAny (subBP (subLD (subDL (subDollar l)))))))
    = applySub mQuestion (applySub mBulletAny
      (subBP (subLD (subDL (subDollar l)))))
  exact cycleQY _

/-- `ConversationManager._create_prompt`. -/
def create_prompt (messages : List Message) (user_profile : Option UserProfile) : String :=
  let profileParts : List String :=
    match user_profile with
    | none => []
    | some p =>
        (if p.bagman_description ≠ "" then ["Important Note - " ++ p.bagman_description] else [])
        ++ [profile_context p]
  let history : List String :=
    (messages.filter fun m => m.role ≠ Role.system).map Message.content
  pyJoin "\n\n" ([system_prompt] ++ profileParts ++ history)

/-- Substring test used by `"overloaded_error" in str(e)`. -/
def strContains (hay needle : String) : Bool :=
  hay.toList.tails.any fun t => needle.toList.isPrefixOf t

/-- The primary model identifier. -/
def primaryModel : String := "claude-3-5-sonnet-20241022"

/-- The fallback model identifier. -/
def fallbackModel : String := "claude-3-opus-20240229"

/-- The try/except around the two `client.messages.create` calls in
`get_response`: the primary call, and on an overloaded-error signal a one
second sleep followed by exactly one fallback call; any other primary failure,
and any fallback failure, is re-raised. -/
def anthropic_call (w : TurnWorld) (prompt : String) :
    List Event × Except PyErr GenResponse :=
  match w.primary prompt with
  | .ok response => ([.callModel primaryModel prompt], .ok response)
  | .error e =>
    if strContains e "overloaded_error" then
      match w.fallback prompt with
      | .ok response =>
          ([.callModel primaryModel prompt, .sleep 1, .callModel fallbackModel prompt],
           .ok response)
      | .error e2 =>
          ([.callModel primaryModel prompt, .sleep 1, .callModel fallbackModel prompt],
           .error (.apiError e2))
    else ([.callModel primaryModel prompt], .error (.apiError e))

/-- `response.content[0].text if response.content else ""`: the generated text
of a response whose `content` attribute is present. -/
def firstBlockText : List ContentBlock → String
  | [] => ""
  | b :: _ => b.text

/-- The outcome of one `get_response` call: the context as mutated by the call
(Python mutates in place, so the mutations survive a raised exception), the
event trace, and the returned text or raised exception. -/
structure TurnOutcome where
  ctx : ConversationContext
  events : List Event
  result : Except PyErr String
deriving Repr

/-- `ConversationManager.get_response`. -/
def get_response (w : TurnWorld) (query : PyVal) (ctx : ConversationContext)
    (visible : Bool := true) : TurnOutcome :=
  match query with
  | .str q =>
    let ctx1 : ConversationContext :=
      if ctx.system_message_added then ctx
      else { ctx with
              messages := ctx.messages ++ [{ role := .system, content := system_prompt }],
              system_message_added := true }
    let ctx2 : ConversationContext :=
      { ctx1 with messages := ctx1.messages ++ [{ role := .user, content := q, visible := visible }] }
    let query_results := w.query_engine q
    let ctx3 := { ctx2 with last_query_results := some query_results }
    let doc_context := format_context query_results
    let prompt := create_prompt ctx3.messages ctx3.active_user_profile
        ++ "\n\nRelevant Document Context:\n" ++ doc_context
    let call := anthropic_call w prompt
    let events := Event.retrieve q :: call.1
    match call.2 with
    | .error e => ⟨ctx3, events, .error e⟩
    | .ok response =>
      match response.content with
      | none => ⟨ctx3, events, .error (.valueError "No response received from Anthropic")⟩
      | some blocks =>
        let generated := firstBlockText blocks
        if generated = "" then
          ⟨ctx3, events, .error (.valueError "Empty response received from Anthropic")⟩
        else
          let fixed := fix_text_formatting generated
          ⟨{ ctx3 with messages := ctx3.messages ++ [{ role := .assistant, content := fixed }] },
           events, .ok fixed⟩
  | _ => ⟨ctx, [], .error (.valueError "Query must be a string")⟩

/-! ### Session slots (`src/app.py`)

`main` keeps two independent `ConversationContext` objects in the session
state, one per citizen column.  The start button of a slot binds that slot's
profile, clears its message list, clears its one-shot flag, and then runs an
invisible priming turn; typing in a slot's chat box runs a visible turn on
that slot's context. -/

/-- The context both slots start from (`app.py` lines 148–162). -/
def initialContext : ConversationContext :=
  { messages := [], system_message_added := false, active_user_profile := none }

/-- One action driven against a single context. -/
inductive CtxAction
  | reset (profile : UserProfile)
  | turn (w : TurnWorld) (query : PyVal) (visible : Bool)

/-- Executing one action on a context: `reset` is the start-button mutation
(bind profile, clear messages, clear flag — `app.py` lines 192–194 / 223–225),
`turn` is a `get_response` call. -/
def ctxStep (a : CtxAction) (ctx : ConversationContext) : ConversationContext :=
  match a with
  | .reset p => { ctx with active_user_profile := some p, messages := [], system_message_added := false }
  | .turn w q v => (get_response w q ctx v).ctx

/-- Driving a context through a sequence of actions. -/
def runCtx (acts : List CtxAction) (ctx : ConversationContext) : ConversationContext :=
  acts.foldl (fun c a => ctxStep a c) ctx

/-- The two citizen slots. -/
inductive Slot
  | one
  | two
deriving DecidableEq, Repr

/-- The session state holding both contexts. -/
structure DualState where
  citizen1_context : ConversationContext
  citizen2_context : ConversationContext

/-- An interleaved step: the action runs on the context named by the slot and
only that context is passed to the code. -/
def dualStep (s : DualState) (a : Slot × CtxAction) : DualState :=
  match a.1 with
  | .one => { s with citizen1_context := ctxStep a.2 s.citizen1_context }
  | .two => { s with citizen2_context := ctxStep a.2 s.citizen2_context }

/-- Driving both slots through an interleaved action sequence. -/
def runDual (acts : List (Slot × CtxAction)) (s : DualState) : DualState :=
  acts.foldl dualStep s

/-- The actions of one slot within an interleaving. -/
def slotActions (sl : Slot) (acts : List (Slot × CtxAction)) : List CtxAction :=
  (acts.filter fun a => a.1 = sl).map Prod.snd

/-! ### `ChatLogger` (`src/utils/chat_logger.py`) -/

/-- An established MongoDB collection handle (opaque). -/
structure MongoColl where
  tag : Nat
deriving DecidableEq, Repr

/-- The `ChatLogger` state after `__init__`: `threads` is the collection in
connected mode and `None` after any construction failure. -/
structure ChatLogger where
  threads : Option MongoColl
deriving DecidableEq, Repr

/-- `ChatLogger.__init__`: the whole body is wrapped in `try/except Exception`,
so any connection outcome yields a constructed object — a failure is logged and
the store fields are set to `None` (degraded mode). -/
def chatLogger_init (connect : Except String MongoColl) : ChatLogger :=
  match connect with
  | .ok coll => { threads := some coll }
  | .error _ => { threads := none }

/-- Python truth-value testing of the `threads` attribute, as evaluated by
`if not self.threads:`.  `None` is falsy; a pymongo `Collection` does not
implement truth-value testing — its `__bool__` raises `NotImplementedError`
(pymongo raises this for collections in every released major version). -/
def threadsTruth : Option MongoColl → Except PyErr Bool
  | none => .ok false
  | some _ =>
      .error (.notImplementedError
        "Collection objects do not implement truth value testing or bool()")

/-- `ChatLogger.start_thread`.  `uuid` is the fresh `str(uuid.uuid4())` value;
`insert` is the outcome of `threads.insert_one` (its failure is caught and
logged). -/
def start_thread (lg : ChatLogger) (uuid : String) (insert : Except String Unit) :
    Except PyErr String :=
  match threadsTruth lg.threads with
  | .error e => .error e
  | .ok b =>
    if !b then
      .ok uuid
    else
      match insert with
      | .ok _ => .ok uuid
      | .error _ => .ok uuid

/-- Syntactic validity of a UUID4 string: 8-4-4-4-12 lowercase hex groups. -/
def isHex (c : Char) : Bool := c.isDigit || ('a' ≤ c && c ≤ 'f')

/-- Split a character list at dashes. -/
def splitDash : List Char → List (List Char)
  | [] => [[]]
  | c :: cs =>
    if c = '-' then [] :: splitDash cs
    else
      match splitDash cs with
      | p :: ps => (c :: p) :: ps
      | [] => [[c]]

def isUuidString (s : String) : Bool :=
  let parts := splitDash s.toList
  (parts.map (·.length)) == [8, 4, 4, 4, 12] &&
  parts.all fun p => p.all isHex

/-! ### Helper lemmas -/

/-- `pyJoin` exposes any chosen element as an infix of the joined string. -/
theorem pyJoin_infix (sep : String) (xs : List String) (a : String) (ys : List String) :
    ∃ pre post, pyJoin sep (xs ++ a :: ys) = pre ++ a ++ post := by
  induction xs with
  | nil =>
    cases ys with
    | nil => exact ⟨"", "", by simp [pyJoin]⟩
    | cons y ys => exact ⟨"", sep ++ pyJoin sep (y :: ys), by simp [pyJoin, String.append_assoc]⟩
  | cons x xs ih =>
    obtain ⟨pre, post, hpp⟩ := ih
    match hxs : xs ++ a :: ys with
    | [] => simp at hxs
    | z :: zs =>
      refine ⟨x ++ sep ++ pre, post, ?_⟩
      rw [List.cons_append, hxs]
      show x ++ sep ++ pyJoin sep (z :: zs) = x ++ sep ++ pre ++ a ++ post
      rw [← hxs, hpp]
      simp [String.append_assoc]

/-! ### Claim theorems -/

/-- C10: for every context and every non-string query value, `get_response`
raises `ValueError` before performing any step of the turn: the returned
context is exactly the input context (persona flag, messages, cached retrieval
results all untouched) and the event trace is empty, so no retrieval and no
generation call is made. -/
theorem c10_nonstring_query_rejected (w : TurnWorld) (ctx : ConversationContext)
    (v : Bool) (q : PyVal) (h : ∀ s, q ≠ PyVal.str s) :
    get_response w q ctx v
      = ⟨ctx, [], .error (.valueError "Query must be a string")⟩ := by
  cases q with
  | str s => exact absurd rfl (h s)
  | int n => rfl
  | bool b => rfl
  | pynone => rfl

/-- Witness for C10 at the concrete non-string query `3`. -/
theorem c10_witness :
    get_response ⟨fun _ => [], fun _ => .error "boom", fun _ => .error "boom"⟩
        (PyVal.int 3) initialContext true
      = ⟨initialContext, [], .error (.valueError "Query must be a string")⟩ :=
  c10_nonstring_query_rejected _ _ _ _ (fun s hs => by cases hs)

/-- C1: for the generation stage of a turn (`conversation_manager.py` lines
188–214): when the primary call fails with a signal containing
`overloaded_error`, the trace is exactly one primary call, the fixed one-second
delay, and exactly one fallback call, whose outcome (success or failure) is
final — a fallback failure propagates with no further retry; when the primary
call fails with any other signal, the trace is the primary call alone and the
failure propagates with no fallback call. -/
theorem c1_fallback_policy (w : TurnWorld) (prompt : String) (e : String)
    (hp : w.primary prompt = .error e) :
    (strContains e "overloaded_error" = true →
      (anthropic_call w prompt).1
          = [.callModel primaryModel prompt, .sleep 1, .callModel fallbackModel prompt] ∧
      (∀ r, w.fallback prompt = .ok r → (anthropic_call w prompt).2 = .ok r) ∧
      (∀ e2, w.fallback prompt = .error e2 →
          (anthropic_call w prompt).2 = .error (.apiError e2))) ∧
    (strContains e "overloaded_error" = false →
      anthropic_call w prompt = ([.callModel primaryModel prompt], .error (.apiError e))) := by
  constructor
  · intro hov
    refine ⟨?_, ?_, ?_⟩
    · unfold anthropic_call
      rw [hp]
      simp only [hov, if_true]
      cases hf : w.fallback prompt <;> rfl
    · intro r hf
      unfold anthropic_call
      rw [hp]
      simp only [hov, if_true, hf]
    · intro e2 hf
      unfold anthropic_call
      rw [hp]
      simp only [hov, if_true, hf]
  · intro hov
    unfold anthropic_call
    rw [hp]
    simp only [hov, Bool.false_eq_true, if_false]

/-- Witness for C1: a primary backend failing with an overloaded-error signal
and a fallback that succeeds, plus a primary failing with a plain error. -/
theorem c1_witness :
    (anthropic_call ⟨fun _ => [], fun _ => .error "overloaded_error: busy",
        fun _ => .ok ⟨some [⟨"ok"⟩]⟩⟩ "p").1
      = [.callModel primaryModel "p", .sleep 1, .callModel fallbackModel "p"] ∧
    (anthropic_call ⟨fun _ => [], fun _ => .error "overloaded_error: busy",
        fun _ => .ok ⟨some [⟨"ok"⟩]⟩⟩ "p").2 = .ok ⟨some [⟨"ok"⟩]⟩ ∧
    anthropic_call ⟨fun _ => [], fun _ => .error "plain failure",
        fun _ => .ok ⟨some [⟨"ok"⟩]⟩⟩ "p"
      = ([.callModel primaryModel "p"], .error (.apiError "plain failure")) := by
  refine ⟨?_, ?_, ?_⟩
  · exact ((c1_fallback_policy _ "p" _ rfl).1 (by decide)).1
  · exact ((c1_fallback_policy _ "p" _ rfl).1 (by decide)).2.1 _ rfl
  · exact (c1_fallback_policy _ "p" _ rfl).2 (by decide)

/-- C3: a backend response lacking the expected content shape raises the
invalid-response error (`ValueError("No response received from Anthropic")`)
and a response with the shape but an empty text payload raises the
empty-response error (`ValueError("Empty response received from Anthropic")`);
in both cases the turn aborts without appending any assistant message: the
assistant messages of the context are exactly those it already had. -/
theorem c3_response_validation (w1 w2 : TurnWorld) (q : String)
    (ctx : ConversationContext) (v : Bool) (blocks : List ContentBlock)
    (h1 : ∀ p, w1.primary p = .ok { content := none })
    (h2 : ∀ p, w2.primary p = .ok { content := some blocks })
    (hempty : firstBlockText blocks = "") :
    ((get_response w1 (.str q) ctx v).result
        = .error (.valueError "No response received from Anthropic") ∧
      ((get_response w1 (.str q) ctx v).ctx.messages.filter
          fun m => m.role == Role.assistant)
        = ctx.messages.filter fun m => m.role == Role.assistant) ∧
    ((get_response w2 (.str q) ctx v).result
        = .error (.valueError "Empty response received from Anthropic") ∧
      ((get_response w2 (.str q) ctx v).ctx.messages.filter
          fun m => m.role == Role.assistant)
        = ctx.messages.filter fun m => m.role == Role.assistant) := by
  constructor
  · constructor
    · simp only [get_response, anthropic_call, h1]
    · simp only [get_response, anthropic_call, h1]
      by_cases hsm : ctx.system_message_added <;>
        simp [hsm, List.filter_append]
  · constructor
    · simp only [get_response, anthropic_call, h2, hempty]
      simp [hempty]
    · simp only [get_response, anthropic_call, h2]
      simp only [hempty]
      by_cases hsm : ctx.system_message_added <;>
        simp [hsm, List.filter_append]

/-- Witness for C3: concrete worlds returning a shapeless response and an
empty-content response. -/
theorem c3_witness :
    (get_response ⟨fun _ => [], fun _ => .ok ⟨none⟩, fun _ => .error "x"⟩
        (.str "hi") initialContext true).result
      = .error (.valueError "No response received from Anthropic") ∧
    (get_response ⟨fun _ => [], fun _ => .ok ⟨some []⟩, fun _ => .error "x"⟩
        (.str "hi") initialContext true).result
      = .error (.valueError "Empty response received from Anthropic") :=
  ⟨(c3_response_validation ⟨fun _ => [], fun _ => .ok ⟨none⟩, fun _ => .error "x"⟩
      ⟨fun _ => [], fun _ => .ok ⟨some []⟩, fun _ => .error "x"⟩
      "hi" initialContext true [] (fun _ => rfl) (fun _ => rfl) rfl).1.1,
   (c3_response_validation ⟨fun _ => [], fun _ => .ok ⟨none⟩, fun _ => .error "x"⟩
      ⟨fun _ => [], fun _ => .ok ⟨some []⟩, fun _ => .error "x"⟩
      "hi" initialContext true [] (fun _ => rfl) (fun _ => rfl) rfl).2.1⟩

/-- C6: when the query engine returns an empty result sequence the turn still
completes successfully: the prompt sent to the backend is the assembled prompt
followed by the grounding-block header with an empty passage section, the
retrieval raises nothing (the trace is retrieve-then-call), the cached results
are the empty list, and the assistant message is appended as in a normal
turn. -/
theorem c6_empty_retrieval (w : TurnWorld) (q t : String)
    (ctx : ConversationContext) (v : Bool)
    (hqe : w.query_engine q = [])
    (hp : ∀ p, w.primary p = .ok { content := some [{ text := t }] })
    (ht : t ≠ "") :
    (get_response w (.str q) ctx v).result = .ok (fix_text_formatting t) ∧
    (get_response w (.str q) ctx v).events
      = [.retrieve q,
         .callModel primaryModel
           (create_prompt
              ((if ctx.system_message_added then ctx.messages
                else ctx.messages ++ [{ role := .system, content := system_prompt }])
                ++ [{ role := .user, content := q, visible := v }])
              ctx.active_user_profile ++ "\n\nRelevant Document Context:\n")] ∧
    (get_response w (.str q) ctx v).ctx.messages
      = (if ctx.system_message_added then ctx.messages
          else ctx.messages ++ [{ role := .system, content := system_prompt }])
        ++ [{ role := .user, content := q, visible := v }]
        ++ [{ role := .assistant, content := fix_text_formatting t }] ∧
    (get_response w (.str q) ctx v).ctx.last_query_results = some [] := by
  by_cases hsm : ctx.system_message_added <;>
    refine ⟨?_, ?_, ?_, ?_⟩ <;>
      simp [get_response, anthropic_call, hqe, hp, ht, format_context, pyJoin,
        firstBlockText, hsm]

/-- Witness for C6: an empty collection with a successful generation. -/
theorem c6_witness :
    (get_response ⟨fun _ => [], fun _ => .ok ⟨some [⟨"All set."⟩]⟩, fun _ => .error "x"⟩
        (.str "hello") initialContext true).result = .ok (fix_text_formatting "All set.") ∧
    (get_response ⟨fun _ => [], fun _ => .ok ⟨some [⟨"All set."⟩]⟩, fun _ => .error "x"⟩
        (.str "hello") initialContext true).ctx.last_query_results = some [] :=
  ⟨(c6_empty_retrieval ⟨fun _ => [], fun _ => .ok ⟨some [⟨"All set."⟩]⟩, fun _ => .error "x"⟩
      "hello" "All set." initialContext true rfl (fun _ => rfl) (by decide)).1,
   (c6_empty_retrieval ⟨fun _ => [], fun _ => .ok ⟨some [⟨"All set."⟩]⟩, fun _ => .error "x"⟩
      "hello" "All set." initialContext true rfl (fun _ => rfl) (by decide)).2.2.2⟩

/-- C4: the text post-processing transform `_fix_text_formatting` is
idempotent: for every input string, applying it twice yields the same result
as applying it once; in particular `"$ 100"` is rewritten to `"$100"` and
`"$100"` is left unchanged. -/
theorem c4_idempotent :
    (∀ s : String,
      fix_text_formatting (fix_text_formatting s) = fix_text_formatting s) ∧
    fix_text_formatting "$ 100" = "$100" ∧
    fix_text_formatting "$100" = "$100" := by
  refine ⟨?_, ?_, ?_⟩
  · intro s
    show (fixTextList (fix_text_formatting s).toList).asString
        = (fixTextList s.toList).asString
    have h2 : (fix_text_formatting s).toList = fixTextList s.toList := rfl
    rw [h2, fixTextList_idem]
  · decide
  · decide

/-- C9: in the output of `_fix_text_formatting`, a digit run is never
immediately adjacent to a letter run: every adjacent pair of characters avoids
digit-then-letter and letter-then-digit, in every input; and concretely
`"24hrs"` becomes `"24 hrs"`. -/
theorem c9_digit_letter_separated :
    (∀ s : String,
      ((fix_text_formatting s).toList).Chain' DLok ∧
      ((fix_text_formatting s).toList).Chain' LDok) ∧
    fix_text_formatting "24hrs" = "24 hrs" := by
  constructor
  · intro s
    show (fixTextList s.toList).Chain' DLok ∧ (fixTextList s.toList).Chain' LDok
    unfold fixTextList
    constructor
    · apply subQ_preserve (fun a => DLok_of_not_letter (by decide))
        (fun b => DLok_of_not_digit (by decide))
        (fun a => DLok_of_not_letter (by decide))
        (fun b => DLok_of_not_digit (by decide))
        (fun a b ha _ => DLok_of_not_digit (letter_not_digit ha))
      apply bullet_preserve good_mBulletAny mBulletAny_inv
        (fun a => DLok_of_not_letter (by decide))
        (fun b => DLok_of_not_digit (by decide))
        (fun b => DLok_of_not_digit (by decide))
      apply bullet_preserve good_mBulletPunct mBulletPunct_inv
        (fun a => DLok_of_not_letter (by decide))
        (fun b => DLok_of_not_digit (by decide))
        (fun b => DLok_of_not_digit (by decide))
      apply subLD_noDL
      apply subDL_noDL
    · apply subQ_preserve (fun a => LDok_of_not_digit (by decide))
        (fun b => LDok_of_not_letter (by decide))
        (fun a => LDok_of_not_digit (by decide))
        (fun b => LDok_of_not_letter (by decide))
        (fun a b _ hb => LDok_of_not_digit (letter_not_digit hb))
      apply bullet_preserve good_mBulletAny mBulletAny_inv
        (fun a => LDok_of_not_digit (by decide))
        (fun b => LDok_of_not_letter (by decide))
        (fun b => LDok_of_not_letter (by decide))
      apply bullet_preserve good_mBulletPunct mBulletPunct_inv
        (fun a => LDok_of_not_digit (by decide))
        (fun b => LDok_of_not_letter (by decide))
        (fun b => LDok_of_not_letter (by decide))
      apply subLD_noLD
  · decide

/-- The persona message appended by step 1 of a turn. -/
def personaMsg : Message := { role := .system, content := system_prompt }

/-- The system-role messages of a message list. -/
def sysFilter (msgs : List Message) : List Message :=
  msgs.filter fun m => m.role == Role.system

/-- Effect of a string-query turn on the system-role messages: the persona
message is appended exactly when the one-shot flag was unset, nothing else that
is appended has role system, and the flag is set afterwards. -/
theorem sysFilter_get_response (w : TurnWorld) (q : String)
    (ctx : ConversationContext) (v : Bool) :
    sysFilter (get_response w (.str q) ctx v).ctx.messages
      = (if ctx.system_message_added then sysFilter ctx.messages
         else sysFilter ctx.messages ++ [personaMsg]) ∧
    (get_response w (.str q) ctx v).ctx.system_message_added = true := by
  constructor <;>
  · simp only [get_response]
    repeat' split
    all_goals simp_all [sysFilter, List.filter_append, personaMsg]

/-- The one-shot invariant: the system-role messages are exactly the persona
message when the flag is set, and empty when it is not. -/
def SysInv (ctx : ConversationContext) : Prop :=
  sysFilter ctx.messages = if ctx.system_message_added then [personaMsg] else []

theorem sysInv_step (a : CtxAction) (ctx : ConversationContext) (h : SysInv ctx) :
    SysInv (ctxStep a ctx) := by
  cases a with
  | reset p => simp [ctxStep, SysInv, sysFilter]
  | turn w q v =>
    cases q with
    | str s =>
      obtain ⟨hfil, hflag⟩ := sysFilter_get_response w s ctx v
      unfold SysInv ctxStep
      rw [hfil, hflag]
      unfold SysInv at h
      by_cases hsm : ctx.system_message_added <;> simp [hsm] at h ⊢ <;> simp [h]
    | int n => exact h
    | bool b => exact h
    | pynone => exact h

theorem sysInv_runCtx (acts : List CtxAction) (ctx : ConversationContext)
    (h : SysInv ctx) : SysInv (runCtx acts ctx) := by
  induction acts generalizing ctx with
  | nil => exact h
  | cons a rest ih => exact ih _ (sysInv_step a ctx h)

/-- C2: for every action sequence on a context (turns interleaved with resets
that clear the message list and the one-shot flag together), the resulting
message sequence contains at most one system-role message, and the
`system_message_added` flag is true exactly when the persona message is
present. -/
theorem c2_persona_once (acts : List CtxAction) :
    ((runCtx acts initialContext).messages.countP fun m => m.role == Role.system) ≤ 1 ∧
    ((runCtx acts initialContext).system_message_added = true ↔
      personaMsg ∈ (runCtx acts initialContext).messages) := by
  have hinv : SysInv (runCtx acts initialContext) :=
    sysInv_runCtx acts initialContext (by simp [SysInv, initialContext, sysFilter])
  unfold SysInv sysFilter at hinv
  constructor
  · rw [List.countP_eq_length_filter, hinv]
    by_cases hsm : (runCtx acts initialContext).system_message_added <;> simp [hsm]
  · constructor
    · intro hflag
      rw [hflag] at hinv
      simp only [if_true] at hinv
      have : personaMsg ∈ (runCtx acts initialContext).messages.filter
          fun m => m.role == Role.system := by
        rw [hinv]; simp
      exact (List.mem_filter.mp this).1
    · intro hmem
      by_contra hflag
      have hf : (runCtx acts initialContext).system_message_added = false := by
        cases hx : (runCtx acts initialContext).system_message_added
        · rfl
        · exact absurd hx hflag
      rw [hf] at hinv
      simp only [Bool.false_eq_true, if_false] at hinv
      have : personaMsg ∈ (runCtx acts initialContext).messages.filter
          fun m => m.role == Role.system :=
        List.mem_filter.mpr ⟨hmem, by simp [personaMsg]⟩
      rw [hinv] at this
      cases this

/-- C7: for any interleaving of actions on the two citizen slots, each action
mutates only the context of its own slot: the final state of each slot equals
the state obtained by running that slot's own actions alone on its own initial
context, so a slot's messages, cached retrieval results, profile binding and
one-shot flag carry data only from that slot's actions. -/
theorem c7_slot_isolation (acts : List (Slot × CtxAction)) (s : DualState) :
    runDual acts s
      = { citizen1_context := runCtx (slotActions .one acts) s.citizen1_context,
          citizen2_context := runCtx (slotActions .two acts) s.citizen2_context } := by
  induction acts generalizing s with
  | nil => simp [runDual, runCtx, slotActions]
  | cons a rest ih =>
    obtain ⟨sl, act⟩ := a
    cases sl <;>
      simp [runDual, runCtx, slotActions, dualStep, List.foldl_cons] at ih ⊢ <;>
      rw [ih]

/-- A concrete profile used to examine the assembled prompt. -/
def profRoe : UserProfile :=
  { full_name := "Jane Roe", dob := "1950-01-01", primary_language := "English",
    license_type := "Class D", license_number := "S-12345678",
    license_expiration := "2024-03-15", street := "1 Main St", city := "Boston",
    state := "MA", zip := "02101", bagman_description := "" }

/-- `profRoe` with a date of birth fifty years later (a different computed age). -/
def profRoeYoung : UserProfile := { profRoe with dob := "2000-06-15" }

set_option maxRecDepth 8000 in
/-- Counterexample to C5 as stated: the assembled prompt cannot list an age
computed from the date of birth, because `_create_prompt` never reads the date
of birth — two profiles whose dates of birth differ by fifty years produce
identical prompts (and the prompt mentions no age at all). -/
theorem c5_counterexample :
    profRoe.dob ≠ profRoeYoung.dob ∧
    create_prompt [] (some profRoe) = create_prompt [] (some profRoeYoung) ∧
    strContains (create_prompt [] (some profRoe)) "Age" = false := by
  refine ⟨by decide, rfl, by decide⟩

/-- C5 (amended): when a profile is bound, the assembled prompt contains the
structured profile summary block listing the name, preferred language, current
license type, number and expiration, and residential address; the block is
independent of the date of birth — no age is computed or included. -/
theorem c5_profile_block (msgs : List Message) (p : UserProfile) (d : String) :
    (∃ pre post, create_prompt msgs (some p) = pre ++ profile_context p ++ post) ∧
    create_prompt msgs (some { p with dob := d }) = create_prompt msgs (some p) := by
  constructor
  · unfold create_prompt
    by_cases hb : p.bagman_description = ""
    · obtain ⟨pre, post, h⟩ :=
        pyJoin_infix "\n\n" [system_prompt] (profile_context p)
          ((msgs.filter fun m => m.role ≠ Role.system).map Message.content)
      refine ⟨pre, post, ?_⟩
      simpa [hb] using h
    · obtain ⟨pre, post, h⟩ :=
        pyJoin_infix "\n\n"
          [system_prompt, "Important Note - " ++ p.bagman_description]
          (profile_context p)
          ((msgs.filter fun m => m.role ≠ Role.system).map Message.content)
      refine ⟨pre, post, ?_⟩
      simpa [hb] using h
  · unfold create_prompt profile_context
    rfl

/-- C8: `ChatLogger.__init__` never raises — a failed store connection yields
a constructed, degraded logger — and in degraded mode `start_thread` returns
the fresh UUID.  But in connected mode the claim fails on the code:
`start_thread` evaluates `if not self.threads:` on a pymongo collection, whose
`__bool__` raises `NotImplementedError`, so no identifier is returned at all
(the insert outcome is never even reached). -/
theorem c8_start_thread (m u : String) (coll : MongoColl)
    (insert : Except String Unit) (hu : isUuidString u = true) :
    (chatLogger_init (.error m)).threads = none ∧
    start_thread (chatLogger_init (.error m)) u insert = .ok u ∧
    isUuidString u = true ∧
    start_thread (chatLogger_init (.ok coll)) u insert
      = .error (.notImplementedError
          "Collection objects do not implement truth value testing or bool()") := by
  exact ⟨rfl, rfl, hu, rfl⟩

/-- Witness for C8 at a concrete UUID string and insert failure. -/
theorem c8_witness :
    start_thread (chatLogger_init (.error "connection refused"))
        "123e4567-e89b-42d3-a456-426614174000" (.error "insert failed")
      = .ok "123e4567-e89b-42d3-a456-426614174000" ∧
    start_thread (chatLogger_init (.ok ⟨0⟩))
        "123e4567-e89b-42d3-a456-426614174000" (.error "insert failed")
      = .error (.notImplementedError
          "Collection objects do not implement truth value testing or bool()") :=
  ⟨(c8_start_thread "connection refused" "123e4567-e89b-42d3-a456-426614174000"
      ⟨0⟩ (.error "insert failed") (by decide)).2.1,
   (c8_start_thread "connection refused" "123e4567-e89b-42d3-a456-426614174000"
      ⟨0⟩ (.error "insert failed") (by decide)).2.2.2⟩

end Obi
